import Mathlib

/-!
Verification of the ArshiaNetLogicSim logic-compilation pipeline.

This file embeds, in Lean, the core C modules of the repository:
`logic_ast.c` (AST type and evaluation), `logic_parser.c` (two-stack
expression parser), `logic_minimizer.c` (Quine-McCluskey reduction and
SOP formatting) and `logic_netlist.c` (netlist generation), and proves
or refutes the frozen behavioural claims about them.

Conventions of the embedding:
* C pointers to `LogicNode` are modelled by a `null` constructor of the
  `LogicNode` inductive; a NULL pointer is `LogicNode.null`.
* C `int` values that are always non-negative in the program (masks,
  minterms, ids, counts) are modelled by `Nat`; the one place where a
  signed quantity matters (`var_name - 'A'` in `AST_Evaluate`) uses `Int`.
* The fixed-capacity stack of the parser (MAX_STACK = 128) is modelled
  by a list with the same silently-dropping push.
-/

namespace LogicSim

set_option maxRecDepth 100000

/-! ## Character classification (ctype.h as used by the parser) -/

/-- C `isspace` for the ASCII range (space, tab, newline, vtab, formfeed, CR). -/
def c_isspace (c : Char) : Bool :=
  c = ' ' || c = '\t' || c = '\n' || c = '\x0b' || c = '\x0c' || c = '\r'

/-- C `isalnum` for the ASCII range: letters and digits. -/
def c_isalnum (c : Char) : Bool :=
  ('A' ≤ c && c ≤ 'Z') || ('a' ≤ c && c ≤ 'z') || ('0' ≤ c && c ≤ '9')

/-- C `toupper` for the ASCII range. -/
def c_toupper (c : Char) : Char :=
  if 'a' ≤ c && c ≤ 'z' then Char.ofNat (c.toNat - 32) else c

/-! ## `logic_ast.h` / `logic_ast.c`: the AST -/

/-- `NodeType` from `logic_ast.h`. -/
inductive NodeType where
  | NODE_VAR
  | NODE_AND
  | NODE_OR
  | NODE_XOR
  | NODE_NOT
  | NODE_NAND
  | NODE_NOR
deriving DecidableEq, Repr

/-- `LogicNode*` from `logic_ast.h`: a node has a type tag, a variable
name (meaningful only for `NODE_VAR`), and left/right child pointers.
`null` models the NULL pointer. -/
inductive LogicNode where
  | null : LogicNode
  | mk (type : NodeType) (var_name : Char) (left right : LogicNode) : LogicNode
deriving DecidableEq, Repr

/-- `AST_CreateNode` from `logic_ast.c`: fresh operator node, children NULL,
`var_name` zero. -/
def AST_CreateNode (t : NodeType) : LogicNode :=
  LogicNode.mk t (Char.ofNat 0) LogicNode.null LogicNode.null

/-- `AST_CreateVar` from `logic_ast.c`. -/
def AST_CreateVar (name : Char) : LogicNode :=
  LogicNode.mk NodeType.NODE_VAR name LogicNode.null LogicNode.null

/-- `AST_Evaluate` from `logic_ast.c`.  A NULL root evaluates to false.
A variable evaluates bit `var_name - 'A'` of the input mask, defensively
returning false when that index is outside 0..31.  Operator nodes evaluate
both children (a NULL child is false) and combine them; `NODE_NOT` uses
only the left child. -/
def AST_Evaluate : LogicNode → Nat → Bool
  | LogicNode.null, _ => false
  | LogicNode.mk t v l r, input_mask =>
    if t = NodeType.NODE_VAR then
      let index : Int := (v.toNat : Int) - 65
      if index < 0 || index > 31 then false
      else decide ((input_mask >>> index.toNat) &&& 1 = 1)
    else
      let lv := AST_Evaluate l input_mask
      let rv := AST_Evaluate r input_mask
      match t with
      | NodeType.NODE_AND => lv && rv
      | NodeType.NODE_OR => lv || rv
      | NodeType.NODE_XOR => Bool.xor lv rv
      | NodeType.NODE_NOT => !lv
      | NodeType.NODE_NAND => !(lv && rv)
      | NodeType.NODE_NOR => !(lv || rv)
      | NodeType.NODE_VAR => false

/-! ## `logic_parser.c`: the two-stack parser -/

/-- `MAX_STACK` from `logic_parser.c`. -/
def MAX_STACK : Nat := 128

/-- `node_push`: push unless the stack is full (silently drops). Head of the
list is the top of the stack. -/
def node_push (s : List LogicNode) (n : LogicNode) : List LogicNode :=
  if s.length < MAX_STACK then n :: s else s

/-- `node_pop`: returns NULL on an empty stack. -/
def node_pop (s : List LogicNode) : LogicNode × List LogicNode :=
  match s with
  | [] => (LogicNode.null, [])
  | n :: rest => (n, rest)

/-- `op_push`. -/
def op_push (s : List Char) (c : Char) : List Char :=
  if s.length < MAX_STACK then c :: s else s

/-- `op_pop`: returns the zero character on an empty stack. -/
def op_pop (s : List Char) : Char × List Char :=
  match s with
  | [] => (Char.ofNat 0, [])
  | c :: rest => (c, rest)

/-- `get_precedence` from `logic_parser.c`.  Note: only `!` `'` `*` `+` `^`
have nonzero precedence; every other character (including `%` and `$`)
falls through to the default 0. -/
def get_precedence (op : Char) : Nat :=
  if op = '!' then 4
  else if op = Char.ofNat 39 then 4
  else if op = '*' then 3
  else if op = '+' then 2
  else if op = '^' then 2
  else 0

/-- `char_to_type` from `logic_parser.c`.  Note: only `*` `+` `^` `!` are
mapped; every other character (including `%` and `$`) falls through to the
default `NODE_AND`. -/
def char_to_type (op : Char) : NodeType :=
  if op = '*' then NodeType.NODE_AND
  else if op = '+' then NodeType.NODE_OR
  else if op = '^' then NodeType.NODE_XOR
  else if op = '!' then NodeType.NODE_NOT
  else NodeType.NODE_AND

/-- The node-stack effect of `build_subtree` for a popped operator `op`:
`!` consumes one operand (as left child), any other operator consumes two
(first pop becomes the right child).  `build_subtree` itself additionally
pops `op` off the operator stack; the call sites below do that pop on the
matched head of the list, which makes the `while` loops structurally
recursive. -/
def apply_op (op : Char) (nodes : List LogicNode) : List LogicNode :=
  if op = '!' then
    let (l, ns) := node_pop nodes
    node_push ns (LogicNode.mk (char_to_type op) (Char.ofNat 0) l LogicNode.null)
  else
    let (r, ns1) := node_pop nodes
    let (l, ns2) := node_pop ns1
    node_push ns2 (LogicNode.mk (char_to_type op) (Char.ofNat 0) l r)

/-- `build_subtree` from `logic_parser.c`: pop an operator and reduce. -/
def build_subtree (nodes : List LogicNode) (ops : List Char) :
    List LogicNode × List Char :=
  let (op, ops2) := op_pop ops
  (apply_op op nodes, ops2)

/-- The implicit-multiplication reduction loop of `Parser_ParseString`:
`while (ops.top > 0 && get_precedence(op_peek(&ops)) >= get_precedence('*'))
build_subtree(...)`. -/
def reduce_star : List LogicNode → List Char → List LogicNode × List Char
  | nodes, [] => (nodes, [])
  | nodes, top :: rest =>
    if get_precedence top ≥ get_precedence '*' then
      reduce_star (apply_op top nodes) rest
    else (nodes, top :: rest)

/-- The close-parenthesis reduction loop:
`while (ops.top > 0 && op_peek(&ops) != '(') build_subtree(...)`. -/
def reduce_to_open : List LogicNode → List Char → List LogicNode × List Char
  | nodes, [] => (nodes, [])
  | nodes, top :: rest =>
    if top ≠ '(' then reduce_to_open (apply_op top nodes) rest
    else (nodes, top :: rest)

/-- The binary-operator reduction loop (case 5 of `Parser_ParseString`),
with the `!`/`!` break. -/
def reduce_binary (c : Char) : List LogicNode → List Char → List LogicNode × List Char
  | nodes, [] => (nodes, [])
  | nodes, top :: rest =>
    if get_precedence top ≥ get_precedence c then
      if top = '!' && c = '!' then (nodes, top :: rest)
      else reduce_binary c (apply_op top nodes) rest
    else (nodes, top :: rest)

/-- The end-of-input reduction loop: `while (ops.top > 0) build_subtree(...)`. -/
def reduce_all : List LogicNode → List Char → List LogicNode
  | nodes, [] => nodes
  | nodes, top :: rest => reduce_all (apply_op top nodes) rest

/-- The `TokenType` enum local to `Parser_ParseString`. -/
inductive TokenType where
  | START
  | OP
  | VAR
  | OPEN_PAREN
  | CLOSE_PAREN
deriving DecidableEq, Repr

/-- The mutable parser state of `Parser_ParseString`: the two stacks and
`last_token`. -/
structure PState where
  nodes : List LogicNode
  ops : List Char
  last_token : TokenType
deriving DecidableEq, Repr

/-- One iteration of the character loop of `Parser_ParseString`. -/
def process_char (st : PState) (c : Char) : PState :=
  if c_isspace c then st
  else if c_isalnum c then
    -- Case 1: variables; implicit multiplication if preceding token was VAR or ')'
    if st.last_token = TokenType.VAR || st.last_token = TokenType.CLOSE_PAREN then
      let (ns, os) := reduce_star st.nodes st.ops
      ⟨node_push ns (AST_CreateVar (c_toupper c)), op_push os '*', TokenType.VAR⟩
    else
      ⟨node_push st.nodes (AST_CreateVar (c_toupper c)), st.ops, TokenType.VAR⟩
  else if c = Char.ofNat 39 then
    -- Case 2: postfix NOT: wrap the top node; no-op on an empty node stack
    -- (note: last_token is also left unchanged in that case)
    if 0 < st.nodes.length then
      let (operand, ns) := node_pop st.nodes
      ⟨node_push ns (LogicNode.mk NodeType.NODE_NOT (Char.ofNat 0) operand LogicNode.null),
        st.ops, TokenType.VAR⟩
    else st
  else if c = '(' then
    -- Case 3: open parenthesis, with implicit multiplication
    if st.last_token = TokenType.VAR || st.last_token = TokenType.CLOSE_PAREN then
      let (ns, os) := reduce_star st.nodes st.ops
      ⟨ns, op_push (op_push os '*') '(', TokenType.OPEN_PAREN⟩
    else
      ⟨st.nodes, op_push st.ops '(', TokenType.OPEN_PAREN⟩
  else if c = ')' then
    -- Case 4: close parenthesis
    let (ns, os) := reduce_to_open st.nodes st.ops
    let (_, os2) := op_pop os
    ⟨ns, os2, TokenType.CLOSE_PAREN⟩
  else
    -- Case 5: binary operators
    let (ns, os) := reduce_binary c st.nodes st.ops
    ⟨ns, op_push os c, TokenType.OP⟩

/-- The character loop of `Parser_ParseString`. -/
def parse_loop : PState → List Char → PState
  | st, [] => st
  | st, c :: cs => parse_loop (process_char st c) cs

/-- `Parser_ParseString` from `logic_parser.c`.  After the loop, remaining
operators are reduced; the parse succeeds only when exactly one node is
left on the stack, otherwise NULL is returned (the C code frees the
partial subtrees). -/
def Parser_ParseString (expression : String) : LogicNode :=
  let st := parse_loop ⟨[], [], TokenType.START⟩ expression.data
  let final_nodes := reduce_all st.nodes st.ops
  match final_nodes with
  | [root] => root
  | _ => LogicNode.null

/-! ## `logic_minimizer.c`: truth tables and Quine-McCluskey -/

/-- `MAX_VARS` from `logic_minimizer.h`. -/
def MAX_VARS : Nat := 6

/-- `Minimizer_GenerateTruthTable` from `logic_minimizer.c`: the ordered
list of masks `i < 64` with `AST_Evaluate root i` true; the empty table
for a NULL root. -/
def Minimizer_GenerateTruthTable (root : LogicNode) : List Nat :=
  if root = LogicNode.null then []
  else (List.range 64).filter (fun i => AST_Evaluate root i)

/-- `Minimizer_GetMaxterms` from `logic_minimizer.c`: the ordered list of
masks `i < 64` with `AST_Evaluate root i` false; the empty table for a
NULL root. -/
def Minimizer_GetMaxterms (root : LogicNode) : List Nat :=
  if root = LogicNode.null then []
  else (List.range 64).filter (fun i => !AST_Evaluate root i)

/-- `Implicant` from `logic_minimizer.h`. -/
structure Implicant where
  value : Nat
  mask : Nat
  used : Bool
  is_essential : Bool
deriving DecidableEq, Repr

instance : Inhabited Implicant := ⟨⟨0, 0, false, false⟩⟩

/-- `can_combine` from `logic_minimizer.c`: two implicants merge when their
masks agree and their values differ in exactly one bit; the merged
implicant clears that bit in the value (`value & ~diff`, written here as
`value ^^^ (value &&& diff)`) and adds it to the mask.  The C out-parameter
is modelled with `Option`. -/
def can_combine (a b : Implicant) : Option Implicant :=
  -- diff = a.value ^ b.value (the C local is inlined here)
  if a.mask ≠ b.mask then none
  else if (a.value ^^^ b.value) ≠ 0 &&
      ((a.value ^^^ b.value) &&& ((a.value ^^^ b.value) - 1)) = 0 then
    some ⟨a.value ^^^ (a.value &&& (a.value ^^^ b.value)),
      a.mask ||| (a.value ^^^ b.value), false, false⟩
  else none

/-- `term_exists` from `logic_minimizer.c`: deduplication by `(value, mask)`. -/
def term_exists (list : List Implicant) (t : Implicant) : Bool :=
  list.any (fun x => x.value = t.value && x.mask = t.mask)

/-- `terms[k].used = true` for one implicant. -/
def set_used (t : Implicant) : Implicant :=
  ⟨t.value, t.mask, true, t.is_essential⟩

/-- Re-attach the current `j` element (possibly marked) in front of the
processed tail of a row result. -/
def row_cons (b : Implicant) (r : Implicant × List Implicant × List Implicant × Bool) :
    Implicant × List Implicant × List Implicant × Bool :=
  (r.1, b :: r.2.1, r.2.2.1, r.2.2.2)

/-- The inner `j` loop of the O(N^2) comparison in
`Minimizer_FindPrimeImplicants`, for one fixed row element `a = terms[i]`
against the tail `terms[i+1..]`: each pair that `can_combine` marks both
elements used, and the merged implicant is appended to `next` unless it is
already there (appending sets `changed`).  The C loop indexes a mutable
array; since `can_combine` reads only `value` and `mask`, which are never
written during a pass, walking the tail structurally and threading the
marked elements back is observationally the same loop (same pair order,
same appends, same final flags).  Returns (updated `a`, updated tail,
`next`, `changed`). -/
def qm_row (a : Implicant) : List Implicant → List Implicant → Bool →
    Implicant × List Implicant × List Implicant × Bool
  | [], next, changed => (a, [], next, changed)
  | b :: bs, next, changed =>
    match can_combine a b with
    | some combined =>
      if term_exists next combined then
        row_cons (set_used b) (qm_row (set_used a) bs next changed)
      else
        row_cons (set_used b) (qm_row (set_used a) bs (next ++ [combined]) true)
    | none =>
      row_cons b (qm_row a bs next changed)

/-- The outer `i` loop of the O(N^2) comparison: run `qm_row` for each
element against the elements after it, threading the marks.  `fuel` makes
the recursion structural for the kernel evaluator; the caller passes the
list length, which is preserved by `qm_row`, so it never runs out. -/
def qm_pass : Nat → List Implicant → List Implicant → Bool →
    List Implicant × List Implicant × Bool
  | 0, cur, next, changed => (cur, next, changed)
  | _ + 1, [], next, changed => ([], next, changed)
  | fuel + 1, a :: rest, next, changed =>
    let r := qm_row a rest next changed
    let r2 := qm_pass fuel r.2.1 r.2.2.1 r.2.2.2
    (r.1 :: r2.1, r2.2.1, r2.2.2)

/-- The prime-collection loop: every term of the current pass not marked
used is a prime implicant and is appended to `primes`, deduplicated by
`(value, mask)`. -/
def collect_primes : List Implicant → List Implicant → List Implicant
  | [], primes => primes
  | t :: rest, primes =>
    if !t.used then
      if term_exists primes t then collect_primes rest primes
      else collect_primes rest (primes ++ [t])
    else collect_primes rest primes

/-- `terms[k].used = false` for one implicant. -/
def unmark (t : Implicant) : Implicant :=
  ⟨t.value, t.mask, false, t.is_essential⟩

/-- The `used`-flag reset at the start of each pass. -/
def clear_used (l : List Implicant) : List Implicant :=
  l.map unmark

/-- The `while (changed)` loop of `Minimizer_FindPrimeImplicants`.  The C
loop terminates because each pass that merges strictly increases the
smallest mask of the generation, and masks stay below 64 for minterms
below 64; `fuel` is an upper bound on the number of passes (65 is enough
for any truth table of minterms below 64, proved below). -/
def qm_loop : Nat → List Implicant → List Implicant → List Implicant
  | 0, _, primes => primes
  | fuel + 1, current, primes =>
    let cur := clear_used current
    let r := qm_pass cur.length cur [] false
    let primes2 := collect_primes r.1 primes
    if r.2.2 then qm_loop fuel r.2.1 primes2 else primes2

/-- `Minimizer_FindPrimeImplicants` from `logic_minimizer.c`: start from one
implicant per minterm (`mask = 0`) and iterate passes until none merges. -/
def Minimizer_FindPrimeImplicants (tt : List Nat) : List Implicant :=
  qm_loop 65 (tt.map (fun m => ⟨m, 0, false, false⟩)) []

/-- The literal characters printed by `Minimizer_PrintSOP` for one
implicant: for each non-dash bit 0..5 in order, the variable letter
`'A' + bit`, followed by a prime when the value bit is 0. -/
def sop_term_chars (t : Implicant) : List Char :=
  (List.range MAX_VARS).foldl
    (fun acc bit =>
      if (t.mask >>> bit) &&& 1 = 1 then acc
      else if (t.value >>> bit) &&& 1 = 1 then acc ++ [Char.ofNat (65 + bit)]
      else acc ++ [Char.ofNat (65 + bit), Char.ofNat 39])
    []

/-- `Minimizer_PrintSOP` from `logic_minimizer.c`: the empty list prints
the constant-false string; a first implicant with mask 63 prints the
constant-true string; otherwise the terms are joined with `" + "`.
The C buffer is assumed large enough (the function takes no capacity). -/
def Minimizer_PrintSOP (list : List Implicant) : String :=
  if list.length = 0 then "0 (False)"
  else if (list.headD default).mask = 63 then "1 (True)"
  else
    String.mk
      (list.enum.foldl
        (fun acc p =>
          (if 0 < p.1 then acc ++ (" + ").data else acc) ++ sop_term_chars p.2)
        [])

/-! ## `logic_netlist.c`: netlist generation

Two embeddings of the same traversal are given.  The element-level one
(`visit`, `Netlist_GenerateElems`) emits the node/edge records whose JSON
serializations the C code writes, abstracting the output buffer; it is
used for the structural flattening claims.  The string-level one
(`visit_s`, `Netlist_GenerateJSON`) reproduces the byte-level behaviour of
the C `append` helper including its silent truncation, and is used for the
resource-limit claim.

In the C code `traverse` and `collect_inputs` are mutually recursive, with
`collect_inputs` calling `traverse` on the same node in its non-flattening
branch.  Both embeddings fuse the two functions into one (`parent = none`
is a `traverse` call, `parent = some (pid, ptype)` a
`collect_inputs(node, pid, ptype)` call, whose non-flattening branch
inlines `traverse` and then emits the child-to-parent edge exactly as the
C code does after `traverse` returns); this makes the recursion
structural. -/

/-- A netlist element: the payload of one JSON object emitted by
`logic_netlist.c` (node records carry id, label and type, edge records a
source and target id). -/
inductive NetElem where
  | node (id : Int) (label : String) (kind : String)
  | edge (source target : Int)
deriving DecidableEq, Repr

/-- `is_associative` from `logic_netlist.c`. -/
def is_associative (t : NodeType) : Bool :=
  t = NodeType.NODE_AND || t = NodeType.NODE_OR || t = NodeType.NODE_XOR

/-- The visual label switch of `traverse`. -/
def node_label (t : NodeType) (v : Char) : String :=
  match t with
  | NodeType.NODE_VAR => String.mk [v]
  | NodeType.NODE_AND => "AND"
  | NodeType.NODE_OR => "OR"
  | NodeType.NODE_XOR => "XOR"
  | NodeType.NODE_NOT => "NOT"
  | _ => "?"

/-- The flattening test of `collect_inputs`:
`node->type == parent_type && is_associative(parent_type)`. -/
def flatten_here (t : NodeType) (parent : Option (Int × NodeType)) : Bool :=
  match parent with
  | some (_, pt) => t = pt && is_associative pt
  | none => false

/-- Element-level fusion of `traverse` / `collect_inputs`: returns the
emitted elements, the updated id counter, and the id `traverse` returns
(-1 for NULL, unused in the flattening branch). -/
def visit : LogicNode → Option (Int × NodeType) → Nat → List NetElem × Nat × Int
  | LogicNode.null, _, idc => ([], idc, -1)
  | LogicNode.mk t v l r, parent, idc =>
    if flatten_here t parent then
      -- collect_inputs case 1: recurse into the child's children under the
      -- parent's id; no node, no id for this child
      let r1 := visit l parent idc
      let r2 := visit r parent r1.2.1
      (r1.1 ++ r2.1, r2.2.1, -1)
    else
      -- traverse: assign an id, emit the node record, then the children,
      -- then (collect_inputs case 2) the edge into the parent
      let my_id : Int := (idc : Int)
      let head := NetElem.node my_id (node_label t v)
        (if t = NodeType.NODE_VAR then "var" else "gate")
      let children :=
        if t = NodeType.NODE_NOT then
          if l ≠ LogicNode.null then
            let rl := visit l none (idc + 1)
            (rl.1 ++ [NetElem.edge rl.2.2 my_id], rl.2.1)
          else ([], idc + 1)
        else if t ≠ NodeType.NODE_VAR then
          let r1 := visit l (some (my_id, t)) (idc + 1)
          let r2 := visit r (some (my_id, t)) r1.2.1
          (r1.1 ++ r2.1, r2.2.1)
        else ([], idc + 1)
      let tail :=
        match parent with
        | some (pid, _) => [NetElem.edge my_id pid]
        | none => []
      (head :: (children.1 ++ tail), children.2, my_id)

/-- Element-level `Netlist_GenerateJSON`: the traversed elements followed
by the synthetic output node and its wiring edge; empty for a NULL root. -/
def Netlist_GenerateElems (target_name : String) (root : LogicNode) : List NetElem :=
  if root = LogicNode.null then []
  else
    let r := visit root none 0
    r.1 ++ [NetElem.node (r.2.1 : Int) target_name ("output"), NetElem.edge r.2.2 (r.2.1 : Int)]

/-- `append` from `logic_netlist.c`: append only when the result still
fits strictly below `max_len - 1`; otherwise silently drop the string.
The buffer is modelled by the string written so far (the C `offset` is its
length). -/
def c_append (buffer : String) (max_len : Nat) (str : String) : String :=
  if buffer.length + str.length < max_len - 1 then buffer ++ str else buffer

/-- The node JSON written by `traverse`:
`{ "data": { "id": "n%d", "label": "%s", "type": "%s" } },`. -/
def node_json (id : Int) (label : String) (kind : String) : String :=
  "\x7b \"data\": \x7b \"id\": \"n" ++ toString id ++ "\", \"label\": \"" ++ label ++
    "\", \"type\": \"" ++ kind ++ "\" \x7d \x7d,"

/-- The edge JSON written by `traverse` / `collect_inputs`:
`{ "data": { "source": "n%d", "target": "n%d" } },`. -/
def edge_json (source target : Int) : String :=
  "\x7b \"data\": \x7b \"source\": \"n" ++ toString source ++ "\", \"target\": \"n" ++
    toString target ++ "\" \x7d \x7d,"

/-- String-level fusion of `traverse` / `collect_inputs`, with the
truncating `append`: returns the buffer, the updated id counter, and the
id `traverse` returns. -/
def visit_s (max_len : Nat) : LogicNode → Option (Int × NodeType) → String → Nat →
    String × Nat × Int
  | LogicNode.null, _, buffer, idc => (buffer, idc, -1)
  | LogicNode.mk t v l r, parent, buffer, idc =>
    if flatten_here t parent then
      let r1 := visit_s max_len l parent buffer idc
      let r2 := visit_s max_len r parent r1.1 r1.2.1
      (r2.1, r2.2.1, -1)
    else
      let my_id : Int := (idc : Int)
      let b1 := c_append buffer max_len
        (node_json my_id (node_label t v) (if t = NodeType.NODE_VAR then "var" else "gate"))
      let children :=
        if t = NodeType.NODE_NOT then
          if l ≠ LogicNode.null then
            let rl := visit_s max_len l none b1 (idc + 1)
            (c_append rl.1 max_len (edge_json rl.2.2 my_id), rl.2.1)
          else (b1, idc + 1)
        else if t ≠ NodeType.NODE_VAR then
          let r1 := visit_s max_len l (some (my_id, t)) b1 (idc + 1)
          let r2 := visit_s max_len r (some (my_id, t)) r1.1 r1.2.1
          (r2.1, r2.2.1)
        else (b1, idc + 1)
      match parent with
      | some (pid, _) =>
        (c_append children.1 max_len (edge_json my_id pid), children.2, my_id)
      | none => (children.1, children.2, my_id)

/-- `Netlist_GenerateJSON` from `logic_netlist.c`, byte-level: open
bracket, traversal, output node and wiring edge, trailing-comma fixup,
closing bracket — every write going through the truncating `append`.
Returns only the buffer: the C function is `void` and reports nothing. -/
def Netlist_GenerateJSON (target_name : String) (root : LogicNode) (max_len : Nat) :
    String :=
  let b0 := c_append ("") max_len ("[")
  let b1 :=
    if root = LogicNode.null then b0
    else
      let r := visit_s max_len root none b0 0
      let out_id : Int := (r.2.1 : Int)
      let b2 := c_append r.1 max_len (node_json out_id target_name ("output"))
      c_append b2 max_len (edge_json r.2.2 out_id)
  let b4 := if b1.length > 1 && b1.back = ',' then b1.dropRight 1 else b1
  c_append b4 max_len ("]")

/-! ## Specification-side definitions (not from the source)

These definitions give names to semantic notions the theorems below are
about: cube coverage for implicants, bit population count, and concrete
sample trees. -/

/-- The boolean cube denoted by an implicant, restricted to the 6 modelled
variables: `m` is covered when every non-dash bit of `m` below `MAX_VARS`
agrees with the corresponding bit of `value`. -/
def covers (t : Implicant) (m : Nat) : Bool :=
  (List.range MAX_VARS).all
    (fun bit => t.mask.testBit bit || (m.testBit bit == t.value.testBit bit))

/-- Coverage by some member of an implicant list. -/
def coverOf (l : List Implicant) (m : Nat) : Bool :=
  l.any (fun t => covers t m)

/-- Population count of the 6 low bits (all implicant masks arising from
minterms below 64 live there). -/
def popcount6 (n : Nat) : Nat :=
  ((List.range MAX_VARS).filter (fun i => n.testBit i)).length

/-- The invariant of every implicant arising from a truth table of
minterms below 64: value and mask are 6-bit, and no don't-care bit is set
in the value. -/
def InvImp (t : Implicant) : Prop :=
  t.value < 64 ∧ t.mask < 64 ∧ t.value &&& t.mask = 0

/-- One full generation of the Quine-McCluskey run on the complete
(constant-true) truth table: every element is a canonical cube whose mask
has popcount `g`, and every such cube occurs. -/
def GenInv (g : Nat) (cur : List Implicant) : Prop :=
  (∀ t ∈ cur, InvImp t ∧ popcount6 t.mask = g ∧ t.is_essential = false) ∧
  ∀ v μ : Nat, v < 64 → μ < 64 → v &&& μ = 0 → popcount6 μ = g →
    ∃ t ∈ cur, t.value = v ∧ t.mask = μ

/-- A sample tree whose function is constant true on all 64 masks:
`A + A'`. -/
def const_true_root : LogicNode :=
  LogicNode.mk NodeType.NODE_OR (Char.ofNat 0) (AST_CreateVar 'A')
    (LogicNode.mk NodeType.NODE_NOT (Char.ofNat 0) (AST_CreateVar 'A') LogicNode.null)

/-- The characters printed for one literal of an SOP term (empty for a
don't-care bit). -/
def lit_chars (t : Implicant) (bit : Nat) : List Char :=
  if (t.mask >>> bit) &&& 1 = 1 then []
  else if (t.value >>> bit) &&& 1 = 1 then [Char.ofNat (65 + bit)]
  else [Char.ofNat (65 + bit), Char.ofNat 39]

/-- Concatenation of the literal characters over a list of bit
positions. -/
def seg_concat (t : Implicant) : List Nat → List Char
  | [] => []
  | bit :: bits => lit_chars t bit ++ seg_concat t bits

/-- The characters printed for every SOP term after the first, each
preceded by the `" + "` separator. -/
def sop_tail_chars : List Implicant → List Char
  | [] => []
  | t :: rest => (" + ").data ++ sop_term_chars t ++ sop_tail_chars rest

/-- Partial term semantics: the conjunction of the literal checks over a
list of bit positions (`seg_sem t (List.range 6) = covers t`). -/
def seg_sem (t : Implicant) (bits : List Nat) (m : Nat) : Bool :=
  bits.all (fun bit => t.mask.testBit bit || (m.testBit bit == t.value.testBit bit))

/-- The parser states that can occur while an SOP term is being read,
relative to a surrounding context `st₀` (the state just before the term):
nothing consumed yet, one pending operand, or a pending product with one
pending operand. -/
def ShapeInv (st₀ : PState) (sem : Nat → Bool) (st : PState) : Prop :=
  ((∀ m, sem m = true) ∧ st = st₀) ∨
  (∃ T, st = ⟨T :: st₀.nodes, st₀.ops, TokenType.VAR⟩ ∧
    ∀ m, AST_Evaluate T m = sem m) ∨
  (∃ T P, st = ⟨T :: P :: st₀.nodes, '*' :: st₀.ops, TokenType.VAR⟩ ∧
    ∀ m, (AST_Evaluate P m && AST_Evaluate T m) = sem m)

/-- The parser states that can occur right after a complete SOP term has
been read, together with the disjunction `sem` of the terms so far. -/
def AccState (sem : Nat → Bool) (st : PState) : Prop :=
  (∃ T, st = ⟨[T], [], TokenType.VAR⟩ ∧ ∀ m, AST_Evaluate T m = sem m) ∨
  (∃ T P, st = ⟨[T, P], ['*'], TokenType.VAR⟩ ∧
    ∀ m, (AST_Evaluate P m && AST_Evaluate T m) = sem m) ∨
  (∃ T acc, st = ⟨[T, acc], ['+'], TokenType.VAR⟩ ∧
    ∀ m, (AST_Evaluate acc m || AST_Evaluate T m) = sem m) ∨
  (∃ T P acc, st = ⟨[T, P, acc], ['*', '+'], TokenType.VAR⟩ ∧
    ∀ m, (AST_Evaluate acc m || (AST_Evaluate P m && AST_Evaluate T m)) = sem m)

/-! ## Lemma layer: basic facts about implicants -/

theorem unmark_value (t : Implicant) : (unmark t).value = t.value := rfl

theorem unmark_mask (t : Implicant) : (unmark t).mask = t.mask := rfl

theorem unmark_used (t : Implicant) : (unmark t).used = false := rfl

theorem set_used_value (t : Implicant) : (set_used t).value = t.value := rfl

theorem set_used_mask (t : Implicant) : (set_used t).mask = t.mask := rfl

theorem set_used_used (t : Implicant) : (set_used t).used = true := rfl

theorem unmark_set_used (t : Implicant) : unmark (set_used t) = unmark t := rfl

theorem unmark_unmark (t : Implicant) : unmark (unmark t) = unmark t := rfl

theorem unmark_of_used_false {t : Implicant} (h : t.used = false) : unmark t = t := by
  cases t
  simp only [unmark]
  simp_all

theorem covers_unmark (t : Implicant) (m : Nat) : covers (unmark t) m = covers t m := rfl

theorem covers_set_used (t : Implicant) (m : Nat) : covers (set_used t) m = covers t m := rfl

theorem covers_congr {a b : Implicant} (hv : a.value = b.value) (hm : a.mask = b.mask)
    (m : Nat) : covers a m = covers b m := by
  simp [covers, hv, hm]

theorem InvImp_unmark {t : Implicant} (h : InvImp t) : InvImp (unmark t) := h

theorem InvImp_set_used {t : Implicant} (h : InvImp t) : InvImp (set_used t) := h

theorem can_combine_set_used_left (a b : Implicant) :
    can_combine (set_used a) b = can_combine a b := rfl

theorem can_combine_set_used_right (a b : Implicant) :
    can_combine a (set_used b) = can_combine a b := rfl

theorem can_combine_unmark_left (a b : Implicant) :
    can_combine (unmark a) b = can_combine a b := rfl

theorem can_combine_unmark_right (a b : Implicant) :
    can_combine a (unmark b) = can_combine a b := rfl

/-- Characterization of a successful merge. -/
theorem can_combine_eq_some {a b c : Implicant} :
    can_combine a b = some c ↔
      a.mask = b.mask ∧ a.value ^^^ b.value ≠ 0 ∧
        (a.value ^^^ b.value) &&& ((a.value ^^^ b.value) - 1) = 0 ∧
        c = ⟨a.value ^^^ (a.value &&& (a.value ^^^ b.value)),
          a.mask ||| (a.value ^^^ b.value), false, false⟩ := by
  unfold can_combine
  split
  · simp_all
  · next hmask =>
    simp only [ne_eq, not_not] at hmask
    split
    · next hcond =>
      simp only [Bool.and_eq_true, decide_eq_true_eq] at hcond
      simp [hmask, hcond.1, hcond.2, eq_comm]
    · next hcond =>
      simp only [Bool.and_eq_true, decide_eq_true_eq, not_and] at hcond
      constructor
      · intro h
        exact absurd h (by simp)
      · rintro ⟨-, h1, h2, -⟩
        exact absurd h2 (by simpa using hcond (by simpa using h1))

theorem can_combine_none_symm {a b : Implicant} (h : can_combine a b = none) :
    can_combine b a = none := by
  cases hc : can_combine b a with
  | none => rfl
  | some c =>
    rcases can_combine_eq_some.mp hc with ⟨hm, hne, hpow, -⟩
    rw [Nat.xor_comm b.value a.value] at hne hpow
    have hs : can_combine a b = some ⟨a.value ^^^ (a.value &&& (a.value ^^^ b.value)),
        a.mask ||| (a.value ^^^ b.value), false, false⟩ :=
      can_combine_eq_some.mpr ⟨hm.symm, hne, hpow, rfl⟩
    rw [hs] at h
    cases h

/-! ## Lemma layer: bit-level facts -/

theorem testBit_false_of_lt64 {x i : Nat} (hx : x < 64) (hi : 6 ≤ i) :
    x.testBit i = false := by
  apply Nat.testBit_lt_two_pow
  calc x < 64 := hx
    _ = 2 ^ 6 := rfl
    _ ≤ 2 ^ i := Nat.pow_le_pow_right (by norm_num) hi

theorem low_eq_of_bits {x y : Nat} (hx : x < 64) (hy : y < 64)
    (h : ∀ bit, bit < 6 → x.testBit bit = y.testBit bit) : x = y := by
  apply Nat.eq_of_testBit_eq
  intro i
  by_cases hi : i < 6
  · exact h i hi
  · rw [testBit_false_of_lt64 hx (by omega), testBit_false_of_lt64 hy (by omega)]

theorem covers_iff {t : Implicant} {m : Nat} :
    covers t m = true ↔
      ∀ bit, bit < 6 → t.mask.testBit bit = true ∨ m.testBit bit = t.value.testBit bit := by
  simp [covers, List.all_eq_true, List.mem_range, MAX_VARS]

theorem diff_pow2 {d : Nat} (hd64 : d < 64) (hd0 : d ≠ 0) (hp : d &&& (d - 1) = 0) :
    ∃ k, k < 6 ∧ d = 2 ^ k := by
  have h : ∀ d' : Fin 64, d'.val ≠ 0 → d'.val &&& (d'.val - 1) = 0 →
      (d'.val = 1 ∨ d'.val = 2 ∨ d'.val = 4 ∨ d'.val = 8 ∨ d'.val = 16 ∨ d'.val = 32) := by
    decide
  rcases h ⟨d, hd64⟩ hd0 hp with h1 | h1 | h1 | h1 | h1 | h1
  · exact ⟨0, by omega, by have h2 : d = 1 := h1; rw [h2]; norm_num⟩
  · exact ⟨1, by omega, by have h2 : d = 2 := h1; rw [h2]; norm_num⟩
  · exact ⟨2, by omega, by have h2 : d = 4 := h1; rw [h2]; norm_num⟩
  · exact ⟨3, by omega, by have h2 : d = 8 := h1; rw [h2]; norm_num⟩
  · exact ⟨4, by omega, by have h2 : d = 16 := h1; rw [h2]; norm_num⟩
  · exact ⟨5, by omega, by have h2 : d = 32 := h1; rw [h2]; norm_num⟩

theorem popcount6_le (n : Nat) : popcount6 n ≤ 6 := by
  have h := List.length_filter_le (fun i => n.testBit i) (List.range MAX_VARS)
  simpa [popcount6, MAX_VARS] using h

theorem popcount6_or_pow {n k : Nat} (hn : n < 64) (hk : k < 6)
    (hbit : n.testBit k = false) : popcount6 (n ||| 2 ^ k) = popcount6 n + 1 := by
  have h : ∀ (n' : Fin 64) (k' : Fin 6), n'.val.testBit k'.val = false →
      popcount6 (n'.val ||| 2 ^ k'.val) = popcount6 n'.val + 1 := by decide
  exact h ⟨n, hn⟩ ⟨k, hk⟩ hbit

theorem mask_eq_63_of_low_bits {n : Nat} (hn : n < 64)
    (h : ∀ bit, bit < 6 → n.testBit bit = true) : n = 63 := by
  apply low_eq_of_bits hn (by norm_num)
  intro bit hbit
  rw [h bit hbit]
  have h63 : ∀ bit' : Fin 6, (63 : Nat).testBit bit'.val = true := by decide
  exact (h63 ⟨bit, hbit⟩).symm

/-! ## Lemma layer: merge semantics

A successful `can_combine` merges two cubes that differ in exactly one
low bit; the merged cube covers exactly the union, stays 6-bit and
normalized, and its mask gains exactly one fresh bit. -/

theorem xor_and_testBit (x d i : Nat) :
    (x ^^^ (x &&& d)).testBit i = (x.testBit i && !(d.testBit i)) := by
  simp only [Nat.testBit_xor, Nat.testBit_and]
  cases x.testBit i <;> cases d.testBit i <;> rfl

/-- Decompose a successful merge of two normalized 6-bit implicants. -/
theorem combined_parts {a b c : Implicant} (ha : InvImp a) (hb : InvImp b)
    (hc : can_combine a b = some c) :
    ∃ k, k < 6 ∧ a.value ^^^ b.value = 2 ^ k ∧ a.mask = b.mask ∧
      c.value = a.value ^^^ (a.value &&& 2 ^ k) ∧ c.mask = a.mask ||| 2 ^ k ∧
      c.used = false ∧ c.is_essential = false := by
  rcases can_combine_eq_some.mp hc with ⟨hm, hne, hpow, hceq⟩
  have hdlt : a.value ^^^ b.value < 64 := @Nat.xor_lt_two_pow _ _ 6 ha.1 hb.1
  rcases diff_pow2 hdlt hne hpow with ⟨k, hk, hdk⟩
  refine ⟨k, hk, hdk, hm, ?_, ?_, ?_, ?_⟩ <;> rw [hceq] <;> simp [hdk]

theorem value_of_xor_pow {a b : Implicant} {k : Nat}
    (hdk : a.value ^^^ b.value = 2 ^ k) : b.value = a.value ^^^ 2 ^ k := by
  apply Nat.eq_of_testBit_eq
  intro i
  have hd := congrArg (fun n => Nat.testBit n i) hdk
  simp only [Nat.testBit_xor] at hd ⊢
  revert hd
  cases a.value.testBit i <;> cases b.value.testBit i <;> simp

/-- The fresh mask bit: the differing bit is not already masked. -/
theorem fresh_bit {a b : Implicant} {k : Nat} (ha : InvImp a) (hb : InvImp b)
    (hdk : a.value ^^^ b.value = 2 ^ k) (hm : a.mask = b.mask) :
    a.mask.testBit k = false := by
  by_contra hcon
  have hamk : a.mask.testBit k = true := by
    cases h : a.mask.testBit k
    · exact absurd h hcon
    · rfl
  have hav : a.value.testBit k = false := by
    have hz := congrArg (fun n => Nat.testBit n k) ha.2.2
    simp only [Nat.testBit_and, Nat.zero_testBit, Bool.and_eq_false_iff] at hz
    rcases hz with h1 | h1
    · exact h1
    · rw [h1] at hamk; cases hamk
  have hbv : b.value.testBit k = false := by
    have hz := congrArg (fun n => Nat.testBit n k) hb.2.2
    simp only [Nat.testBit_and, Nat.zero_testBit, Bool.and_eq_false_iff] at hz
    rcases hz with h1 | h1
    · exact h1
    · rw [← hm, hamk] at h1; cases h1
  have hd := congrArg (fun n => Nat.testBit n k) hdk
  simp only [Nat.testBit_xor, Nat.testBit_two_pow_self, hav, hbv] at hd
  cases hd

/-- The merged implicant stays 6-bit and normalized. -/
theorem InvImp_combined {a b c : Implicant} (ha : InvImp a) (hb : InvImp b)
    (hc : can_combine a b = some c) : InvImp c := by
  rcases combined_parts ha hb hc with ⟨k, hk, hdk, hm, hcv, hcm, -, -⟩
  have hpk : (2 : Nat) ^ k < 64 := by
    calc (2:Nat) ^ k < 2 ^ 6 := Nat.pow_lt_pow_right (by norm_num) hk
      _ = 64 := rfl
  refine ⟨?_, ?_, ?_⟩
  · rw [hcv]
    exact @Nat.xor_lt_two_pow _ _ 6 ha.1 (@Nat.and_lt_two_pow _ _ 6 hpk)
  · rw [hcm]
    exact @Nat.or_lt_two_pow _ _ 6 ha.2.1 hpk
  · apply Nat.eq_of_testBit_eq
    intro i
    have hz := congrArg (fun n => Nat.testBit n i) ha.2.2
    simp only [Nat.testBit_and, Nat.zero_testBit] at hz ⊢
    rw [hcv, hcm, xor_and_testBit, Nat.testBit_or]
    cases hpki : (2 ^ k : Nat).testBit i
    · simp only [Bool.not_false, Bool.and_true, Bool.or_false]
      exact hz
    · simp

/-- The merged mask has exactly one more low bit. -/
theorem popcount6_combined {a b c : Implicant} (ha : InvImp a) (hb : InvImp b)
    (hc : can_combine a b = some c) : popcount6 c.mask = popcount6 a.mask + 1 := by
  rcases combined_parts ha hb hc with ⟨k, hk, hdk, hm, -, hcm, -, -⟩
  rw [hcm]
  exact popcount6_or_pow ha.2.1 hk (fresh_bit ha hb hdk hm)

/-- The merged cube covers exactly the union of its parents. -/
theorem covers_combined {a b c : Implicant} (ha : InvImp a) (hb : InvImp b)
    (hc : can_combine a b = some c) (m : Nat) :
    covers c m = (covers a m || covers b m) := by
  rcases combined_parts ha hb hc with ⟨k, hk, hdk, hm, hcv, hcm, -, -⟩
  have hbv := value_of_xor_pow hdk
  rw [Bool.eq_iff_iff, Bool.or_eq_true, covers_iff, covers_iff, covers_iff]
  constructor
  · intro h
    by_cases hmk : m.testBit k = a.value.testBit k
    · left
      intro bit hbit
      rcases h bit hbit with hmask | hval
      · rw [hcm, Nat.testBit_or, Bool.or_eq_true, Nat.testBit_two_pow] at hmask
        rcases hmask with h1 | h1
        · exact Or.inl h1
        · right
          have hbk : bit = k := by simpa [eq_comm] using h1
          rw [hbk]
          exact hmk
      · by_cases hbk : bit = k
        · right; rw [hbk]; exact hmk
        · right
          rw [hcv, xor_and_testBit, Nat.testBit_two_pow] at hval
          simpa [show ¬ (k = bit) from fun hh => hbk hh.symm] using hval
    · right
      intro bit hbit
      by_cases hbk : bit = k
      · right
        rw [hbk, hbv, Nat.testBit_xor, Nat.testBit_two_pow_self]
        cases hma : m.testBit k <;> cases haa : a.value.testBit k <;>
          simp_all
      · rcases h bit hbit with hmask | hval
        · rw [hcm, Nat.testBit_or, Bool.or_eq_true, Nat.testBit_two_pow] at hmask
          rcases hmask with h1 | h1
          · exact Or.inl (by rw [← hm]; exact h1)
          · exact absurd (by simpa [eq_comm] using h1) hbk
        · right
          rw [hcv, xor_and_testBit, Nat.testBit_two_pow] at hval
          rw [hbv, Nat.testBit_xor, Nat.testBit_two_pow]
          simp only [show ¬ (k = bit) from fun hh => hbk hh.symm, decide_False] at hval ⊢
          simpa using hval
  · intro h
    intro bit hbit
    by_cases hbk : bit = k
    · left
      rw [hcm, hbk, Nat.testBit_or, Nat.testBit_two_pow_self]
      simp
    · have hpow : (2 ^ k : Nat).testBit bit = false :=
        Nat.testBit_two_pow_of_ne (fun hh => hbk hh.symm)
      rcases h with hca | hcb
      · rcases hca bit hbit with h1 | h1
        · left; rw [hcm, Nat.testBit_or, h1]; rfl
        · right
          rw [hcv, xor_and_testBit, hpow]
          simpa using h1
      · rcases hcb bit hbit with h1 | h1
        · left; rw [hcm, Nat.testBit_or, hm, h1]; rfl
        · right
          rw [hcv, xor_and_testBit, hpow]
          rw [hbv, Nat.testBit_xor, hpow] at h1
          simpa using h1

/-! ## Lemma layer: the merge pass -/

theorem set_used_idem (t : Implicant) : set_used (set_used t) = set_used t := rfl

theorem can_combine_congr_left {a a' : Implicant} (h : unmark a = unmark a')
    (b : Implicant) : can_combine a b = can_combine a' b := by
  have hv : a.value = a'.value := by
    rw [← unmark_value a, ← unmark_value a', h]
  have hm : a.mask = a'.mask := by
    rw [← unmark_mask a, ← unmark_mask a', h]
  unfold can_combine
  rw [hv, hm]

theorem can_combine_congr_right {b b' : Implicant} (h : unmark b = unmark b')
    (a : Implicant) : can_combine a b = can_combine a b' := by
  have hv : b.value = b'.value := by
    rw [← unmark_value b, ← unmark_value b', h]
  have hm : b.mask = b'.mask := by
    rw [← unmark_mask b, ← unmark_mask b', h]
  unfold can_combine
  rw [hv, hm]

theorem term_exists_iff {l : List Implicant} {t : Implicant} :
    term_exists l t = true ↔ ∃ x ∈ l, x.value = t.value ∧ x.mask = t.mask := by
  simp [term_exists, List.any_eq_true]

theorem coverOf_iff {l : List Implicant} {m : Nat} :
    coverOf l m = true ↔ ∃ t ∈ l, covers t m = true := by
  simp [coverOf, List.any_eq_true]

theorem forall₂_mem_right {R : Implicant → Implicant → Prop}
    {l l' : List Implicant} (h : List.Forall₂ R l l') {y : Implicant}
    (hy : y ∈ l') : ∃ x ∈ l, R x y := by
  induction h with
  | nil => cases hy
  | cons hr _ ih =>
    rcases List.mem_cons.mp hy with rfl | hy'
    · exact ⟨_, List.mem_cons_self _ _, hr⟩
    · rcases ih hy' with ⟨x, hx, hRx⟩
      exact ⟨x, List.mem_cons_of_mem _ hx, hRx⟩

/-- The shape relation of one pass: each element is either untouched or
merely marked. -/
def MarkedOf (t t' : Implicant) : Prop :=
  t' = t ∨ t' = set_used t

theorem MarkedOf.unmark_eq {t t' : Implicant} (h : MarkedOf t t') :
    unmark t' = unmark t := by
  rcases h with h | h <;> rw [h]
  rfl

theorem MarkedOf.used_mono {t t' : Implicant} (h : MarkedOf t t')
    (hu : t.used = true) : t'.used = true := by
  rcases h with h | h <;> rw [h]
  · exact hu
  · rfl

theorem MarkedOf.trans {t t' t'' : Implicant} (h : MarkedOf t t')
    (h' : MarkedOf t' t'') : MarkedOf t t'' := by
  rcases h with h | h <;> rcases h' with h' | h' <;>
    simp [MarkedOf, h, h', set_used_idem]

theorem MarkedOf.invImp {t t' : Implicant} (h : MarkedOf t t') (hi : InvImp t) :
    InvImp t' := by
  rcases h with h | h <;> rw [h]
  · exact hi
  · exact hi

theorem MarkedOf.covers_eq {t t' : Implicant} (h : MarkedOf t t') (m : Nat) :
    covers t' m = covers t m := by
  rcases h with h | h <;> rw [h]
  rfl

/-- Structural shape of `qm_row`: the row element and the tail are only
(possibly) marked, and `next` only grows. -/
theorem qm_row_shape (a : Implicant) (bs next : List Implicant) (changed : Bool) :
    MarkedOf a (qm_row a bs next changed).1 ∧
    List.Forall₂ MarkedOf bs (qm_row a bs next changed).2.1 ∧
    ∃ l, (qm_row a bs next changed).2.2.1 = next ++ l := by
  have hma : ∀ a : Implicant, MarkedOf a (set_used a) := fun _ => Or.inr rfl
  have hmb : ∀ b : Implicant, MarkedOf b b := fun _ => Or.inl rfl
  induction bs generalizing a next changed with
  | nil => exact ⟨Or.inl rfl, List.Forall₂.nil, [], by simp [qm_row]⟩
  | cons b bs ih =>
    cases hcc : can_combine a b with
    | some combined =>
      by_cases hte : term_exists next combined = true
      · rcases ih (set_used a) next changed with ⟨h1, h2, l, h3⟩
        simp only [qm_row, hcc, hte, if_true, row_cons]
        exact ⟨MarkedOf.trans (hma a) h1, List.Forall₂.cons (hmb b |>.trans (hma b)) h2,
          l, h3⟩
      · rcases ih (set_used a) (next ++ [combined]) true with ⟨h1, h2, l, h3⟩
        simp only [qm_row, hcc, hte, if_false, row_cons]
        refine ⟨MarkedOf.trans (hma a) h1,
          List.Forall₂.cons (hmb b |>.trans (hma b)) h2, combined :: l, ?_⟩
        rw [h3, List.append_assoc]
        rfl
    | none =>
      rcases ih a next changed with ⟨h1, h2, l, h3⟩
      simp only [qm_row, hcc, row_cons]
      exact ⟨h1, List.Forall₂.cons (hmb b) h2, l, h3⟩

/-- Everything in the row's `next` output is either old or the merge of
the row element with some tail element. -/
theorem qm_row_next_sound (a : Implicant) (bs next : List Implicant) (changed : Bool) :
    ∀ c ∈ (qm_row a bs next changed).2.2.1,
      c ∈ next ∨ ∃ b ∈ bs, can_combine a b = some c := by
  induction bs generalizing a next changed with
  | nil =>
    intro c hc
    exact Or.inl hc
  | cons b bs ih =>
    intro c hc
    cases hcc : can_combine a b with
    | some combined =>
      by_cases hte : term_exists next combined = true
      · rw [qm_row] at hc
        simp only [hcc, hte, if_true, row_cons] at hc
        rcases ih (set_used a) next changed c hc with h | ⟨b₀, hb₀, hcb⟩
        · exact Or.inl h
        · rw [can_combine_set_used_left] at hcb
          exact Or.inr ⟨b₀, List.mem_cons_of_mem _ hb₀, hcb⟩
      · rw [qm_row] at hc
        simp only [hcc, hte, if_false, row_cons] at hc
        rcases ih (set_used a) (next ++ [combined]) true c hc with h | ⟨b₀, hb₀, hcb⟩
        · rcases List.mem_append.mp h with h1 | h1
          · exact Or.inl h1
          · have hcb : c = combined := by simpa using h1
            exact Or.inr ⟨b, List.mem_cons_self _ _, hcb ▸ hcc⟩
        · rw [can_combine_set_used_left] at hcb
          exact Or.inr ⟨b₀, List.mem_cons_of_mem _ hb₀, hcb⟩
    | none =>
      rw [qm_row] at hc
      simp only [hcc, row_cons] at hc
      rcases ih a next changed c hc with h | ⟨b₀, hb₀, hcb⟩
      · exact Or.inl h
      · exact Or.inr ⟨b₀, List.mem_cons_of_mem _ hb₀, hcb⟩

theorem qm_row_changed_mono (a : Implicant) (bs next : List Implicant)
    (h : changed = true) : (qm_row a bs next changed).2.2.2 = true := by
  induction bs generalizing a next changed with
  | nil => exact h
  | cons b bs ih =>
    cases hcc : can_combine a b with
    | some combined =>
      by_cases hte : term_exists next combined = true
      · simp only [qm_row, hcc, hte, if_true, row_cons]
        exact ih _ _ h
      · simp only [qm_row, hcc, hte, if_false, row_cons]
        exact ih _ _ rfl
    | none =>
      simp only [qm_row, hcc, row_cons]
      exact ih _ _ h

/-- A row that reports no change did nothing at all (for the empty
starting `next` of a pass). -/
theorem qm_row_quiet (a : Implicant) (bs : List Implicant)
    (h : (qm_row a bs [] false).2.2.2 = false) :
    qm_row a bs [] false = (a, bs, [], false) := by
  induction bs generalizing a with
  | nil => rfl
  | cons b bs ih =>
    cases hcc : can_combine a b with
    | some combined =>
      exfalso
      have hte : term_exists [] combined = false := rfl
      rw [qm_row] at h
      simp only [hcc, hte, if_false, Bool.false_eq_true, row_cons] at h
      rw [qm_row_changed_mono (set_used a) bs ([] ++ [combined]) rfl] at h
      cases h
    | none =>
      rw [qm_row] at h ⊢
      simp only [hcc, row_cons] at h ⊢
      rw [ih a h]

/-- Marked elements of a row output are covered by something in the
row's `next` output. -/
theorem qm_row_used_covered (a : Implicant) (bs next : List Implicant) (changed : Bool)
    (hia : InvImp a) (hibs : ∀ b ∈ bs, InvImp b) :
    ((qm_row a bs next changed).1.used = true → a.used = true ∨
      ∃ c ∈ (qm_row a bs next changed).2.2.1,
        ∀ m, covers a m = true → covers c m = true) ∧
    (∀ b' ∈ (qm_row a bs next changed).2.1, b'.used = true →
      (∃ b ∈ bs, unmark b' = unmark b ∧ b.used = true) ∨
      ∃ c ∈ (qm_row a bs next changed).2.2.1,
        ∀ m, covers b' m = true → covers c m = true) := by
  induction bs generalizing a next changed with
  | nil =>
    constructor
    · intro h
      exact Or.inl h
    · intro b' hb'
      cases hb'
  | cons b bs ih =>
    have hib : InvImp b := hibs b (List.mem_cons_self _ _)
    have hibs' : ∀ x ∈ bs, InvImp x := fun x hx => hibs x (List.mem_cons_of_mem _ hx)
    cases hcc : can_combine a b with
    | some combined =>
      have hcov := covers_combined hia hib hcc
      by_cases hte : term_exists next combined = true
      · -- the merge already exists in next; find it and use it as cover
        rcases term_exists_iff.mp hte with ⟨x, hx, hxv, hxm⟩
        rcases qm_row_shape (set_used a) bs next changed with ⟨-, -, l, hpre⟩
        have hxin : x ∈ (qm_row (set_used a) bs next changed).2.2.1 := by
          rw [hpre]
          exact List.mem_append_left _ hx
        have hxcov : ∀ m, covers x m = covers combined m := fun m =>
          covers_congr hxv hxm m
        simp only [qm_row, hcc, hte, if_true, row_cons]
        constructor
        · intro _hu
          refine Or.inr ⟨x, hxin, fun m hm => ?_⟩
          rw [hxcov m, hcov m, hm]
          rfl
        · intro b' hb'
          rcases List.mem_cons.mp hb' with rfl | hb'
          · intro _hu
            refine Or.inr ⟨x, hxin, fun m hm => ?_⟩
            rw [covers_set_used] at hm
            rw [hxcov m, hcov m, hm]
            simp
          · intro hu
            rcases (ih (set_used a) next changed hia hibs').2 b' hb' hu with
              ⟨b₀, hb₀, he, hu'⟩ | ⟨c, hc, hcov'⟩
            · exact Or.inl ⟨b₀, List.mem_cons_of_mem _ hb₀, he, hu'⟩
            · exact Or.inr ⟨c, hc, hcov'⟩
      · -- the merge is appended to next
        rcases qm_row_shape (set_used a) bs (next ++ [combined]) true with ⟨-, -, l, hpre⟩
        have hcin : combined ∈ (qm_row (set_used a) bs (next ++ [combined]) true).2.2.1 := by
          rw [hpre]
          exact List.mem_append_left _ (List.mem_append_right _ (List.mem_singleton.mpr rfl))
        simp only [qm_row, hcc, hte, if_false, row_cons]
        constructor
        · intro _hu
          refine Or.inr ⟨combined, hcin, fun m hm => ?_⟩
          rw [hcov m, hm]
          rfl
        · intro b' hb'
          rcases List.mem_cons.mp hb' with rfl | hb'
          · intro _hu
            refine Or.inr ⟨combined, hcin, fun m hm => ?_⟩
            rw [covers_set_used] at hm
            rw [hcov m, hm]
            simp
          · intro hu
            rcases (ih (set_used a) (next ++ [combined]) true hia hibs').2 b' hb' hu with
              ⟨b₀, hb₀, he, hu'⟩ | ⟨c, hc, hcov'⟩
            · exact Or.inl ⟨b₀, List.mem_cons_of_mem _ hb₀, he, hu'⟩
            · exact Or.inr ⟨c, hc, hcov'⟩
    | none =>
      simp only [qm_row, hcc, row_cons]
      constructor
      · exact (ih a next changed hia hibs').1
      · intro b' hb'
        rcases List.mem_cons.mp hb' with rfl | hb'
        · intro hu
          exact Or.inl ⟨b', List.mem_cons_self _ _, rfl, hu⟩
        · intro hu
          rcases (ih a next changed hia hibs').2 b' hb' hu with
            ⟨b₀, hb₀, he, hu'⟩ | ⟨c, hc, hcov'⟩
          · exact Or.inl ⟨b₀, List.mem_cons_of_mem _ hb₀, he, hu'⟩
          · exact Or.inr ⟨c, hc, hcov'⟩

/-- Every combinable pair involving the row element gets both marked. -/
theorem qm_row_pair_marked (a : Implicant) (bs next : List Implicant) (changed : Bool) :
    ∀ b' ∈ (qm_row a bs next changed).2.1, can_combine a b' ≠ none →
      (qm_row a bs next changed).1.used = true ∧ b'.used = true := by
  induction bs generalizing a next changed with
  | nil =>
    intro b' hb'
    cases hb'
  | cons b bs ih =>
    intro b' hb' hcomb
    cases hcc : can_combine a b with
    | some combined =>
      have hstep : ∀ nx ch, (qm_row (set_used a) bs nx ch).1.used = true := by
        intro nx ch
        rcases qm_row_shape (set_used a) bs nx ch with ⟨h1, -, -⟩
        exact h1.used_mono rfl
      by_cases hte : term_exists next combined = true
      · rw [qm_row] at hb' ⊢
        simp only [hcc, hte, if_true, row_cons] at hb' ⊢
        rcases List.mem_cons.mp hb' with rfl | hb'
        · exact ⟨hstep _ _, rfl⟩
        · have hcomb' : can_combine (set_used a) b' ≠ none := by
            rw [can_combine_set_used_left]
            exact hcomb
          exact ⟨(ih (set_used a) next changed b' hb' hcomb').1,
            (ih (set_used a) next changed b' hb' hcomb').2⟩
      · rw [qm_row] at hb' ⊢
        simp only [hcc, hte, if_false, row_cons] at hb' ⊢
        rcases List.mem_cons.mp hb' with rfl | hb'
        · exact ⟨hstep _ _, rfl⟩
        · have hcomb' : can_combine (set_used a) b' ≠ none := by
            rw [can_combine_set_used_left]
            exact hcomb
          exact ⟨(ih (set_used a) (next ++ [combined]) true b' hb' hcomb').1,
            (ih (set_used a) (next ++ [combined]) true b' hb' hcomb').2⟩
    | none =>
      rw [qm_row] at hb' ⊢
      simp only [hcc, row_cons] at hb' ⊢
      rcases List.mem_cons.mp hb' with rfl | hb'
      · exact absurd hcc hcomb
      · exact ih a next changed b' hb' hcomb

theorem covers_eq_of_unmark {x y : Implicant} (h : unmark x = unmark y) (m : Nat) :
    covers x m = covers y m := by
  have hv : x.value = y.value := by rw [← unmark_value x, ← unmark_value y, h]
  have hm : x.mask = y.mask := by rw [← unmark_mask x, ← unmark_mask y, h]
  exact covers_congr hv hm m

theorem invImp_of_unmark_eq {x y : Implicant} (h : unmark x = unmark y)
    (hy : InvImp y) : InvImp x := by
  have hv : x.value = y.value := by rw [← unmark_value x, ← unmark_value y, h]
  have hm : x.mask = y.mask := by rw [← unmark_mask x, ← unmark_mask y, h]
  exact ⟨hv ▸ hy.1, hm ▸ hy.2.1, hv ▸ hm ▸ hy.2.2⟩

theorem forall₂_marked_trans {l1 l2 l3 : List Implicant}
    (h1 : List.Forall₂ MarkedOf l1 l2) (h2 : List.Forall₂ MarkedOf l2 l3) :
    List.Forall₂ MarkedOf l1 l3 := by
  induction h1 generalizing l3 with
  | nil =>
    cases h2
    exact List.Forall₂.nil
  | cons hr _ ih =>
    cases h2 with
    | cons hr' htail =>
      exact List.Forall₂.cons (hr.trans hr') (ih htail)

/-- Unfolding equation for one step of the outer pass loop. -/
theorem qm_pass_cons (fuel : Nat) (a : Implicant) (rest next : List Implicant)
    (changed : Bool) :
    qm_pass (fuel + 1) (a :: rest) next changed =
      ((qm_row a rest next changed).1 ::
        (qm_pass fuel (qm_row a rest next changed).2.1
          (qm_row a rest next changed).2.2.1 (qm_row a rest next changed).2.2.2).1,
       (qm_pass fuel (qm_row a rest next changed).2.1
         (qm_row a rest next changed).2.2.1 (qm_row a rest next changed).2.2.2).2.1,
       (qm_pass fuel (qm_row a rest next changed).2.1
         (qm_row a rest next changed).2.2.1 (qm_row a rest next changed).2.2.2).2.2) := rfl

/-- Structural shape of a pass: elements are only (possibly) marked, and
`next` only grows. -/
theorem qm_pass_shape (fuel : Nat) (cur next : List Implicant) (changed : Bool)
    (hfuel : cur.length ≤ fuel) :
    List.Forall₂ MarkedOf cur (qm_pass fuel cur next changed).1 ∧
    ∃ l, (qm_pass fuel cur next changed).2.1 = next ++ l := by
  induction fuel generalizing cur next changed with
  | zero =>
    have hnil : cur = [] := List.length_eq_zero.mp (Nat.le_zero.mp hfuel)
    subst hnil
    exact ⟨List.Forall₂.nil, [], by simp [qm_pass]⟩
  | succ fuel ih =>
    cases cur with
    | nil => exact ⟨List.Forall₂.nil, [], by simp [qm_pass]⟩
    | cons a rest =>
      rcases qm_row_shape a rest next changed with ⟨h1, h2, l, h3⟩
      have hlen : (qm_row a rest next changed).2.1.length ≤ fuel := by
        rw [← h2.length_eq]
        simpa using hfuel
      rcases ih (qm_row a rest next changed).2.1 (qm_row a rest next changed).2.2.1
        (qm_row a rest next changed).2.2.2 hlen with ⟨h4, l2, h5⟩
      rw [qm_pass_cons]
      refine ⟨List.Forall₂.cons h1 (forall₂_marked_trans h2 h4), l ++ l2, ?_⟩
      rw [h5, h3, List.append_assoc]

/-- Everything in a pass's `next` output is old or the merge of two
elements of the input generation. -/
theorem qm_pass_next_sound (fuel : Nat) (cur next : List Implicant) (changed : Bool)
    (hfuel : cur.length ≤ fuel) :
    ∀ c ∈ (qm_pass fuel cur next changed).2.1,
      c ∈ next ∨ ∃ x ∈ cur, ∃ y ∈ cur, can_combine x y = some c := by
  induction fuel generalizing cur next changed with
  | zero =>
    have hnil : cur = [] := List.length_eq_zero.mp (Nat.le_zero.mp hfuel)
    subst hnil
    intro c hc
    exact Or.inl hc
  | succ fuel ih =>
    cases cur with
    | nil =>
      intro c hc
      exact Or.inl hc
    | cons a rest =>
      intro c hc
      rcases qm_row_shape a rest next changed with ⟨-, h2, -⟩
      have hlen : (qm_row a rest next changed).2.1.length ≤ fuel := by
        rw [← h2.length_eq]
        simpa using hfuel
      rw [qm_pass_cons] at hc
      rcases ih (qm_row a rest next changed).2.1 (qm_row a rest next changed).2.2.1
          (qm_row a rest next changed).2.2.2 hlen c hc with h | ⟨x, hx, y, hy, hxy⟩
      · rcases qm_row_next_sound a rest next changed c h with h' | ⟨b, hb, hab⟩
        · exact Or.inl h'
        · exact Or.inr ⟨a, List.mem_cons_self _ _, b, List.mem_cons_of_mem _ hb, hab⟩
      · rcases forall₂_mem_right h2 hx with ⟨x₀, hx₀, hmx⟩
        rcases forall₂_mem_right h2 hy with ⟨y₀, hy₀, hmy⟩
        refine Or.inr ⟨x₀, List.mem_cons_of_mem _ hx₀, y₀, List.mem_cons_of_mem _ hy₀, ?_⟩
        rw [can_combine_congr_left hmx.unmark_eq.symm, can_combine_congr_right hmy.unmark_eq.symm]
        exact hxy

theorem qm_pass_changed_mono (fuel : Nat) (cur next : List Implicant) :
    (qm_pass fuel cur next true).2.2 = true := by
  induction fuel generalizing cur next with
  | zero => rfl
  | succ fuel ih =>
    cases cur with
    | nil => rfl
    | cons a rest =>
      rw [qm_pass_cons]
      have hrow := qm_row_changed_mono a rest next (rfl : (true : Bool) = true)
      rw [hrow] at *
      exact ih _ _

/-- A pass that reports no change did nothing at all. -/
theorem qm_pass_quiet (fuel : Nat) (cur : List Implicant)
    (h : (qm_pass fuel cur [] false).2.2 = false) :
    qm_pass fuel cur [] false = (cur, [], false) := by
  induction fuel generalizing cur with
  | zero => rfl
  | succ fuel ih =>
    cases cur with
    | nil => rfl
    | cons a rest =>
      have hrowq : (qm_row a rest [] false).2.2.2 = false := by
        by_contra hcon
        have htrue : (qm_row a rest [] false).2.2.2 = true := by
          cases hh : (qm_row a rest [] false).2.2.2
          · exact absurd hh hcon
          · rfl
        rw [qm_pass_cons, htrue] at h
        rw [qm_pass_changed_mono] at h
        cases h
      have hrow := qm_row_quiet a rest hrowq
      rw [qm_pass_cons, hrow] at h ⊢
      simp only at h ⊢
      rw [ih rest h]

/-- Marked elements of a pass output are covered by something in the
pass's `next` output. -/
theorem qm_pass_used_covered (fuel : Nat) (cur next : List Implicant) (changed : Bool)
    (hfuel : cur.length ≤ fuel) (hInv : ∀ t ∈ cur, InvImp t) :
    ∀ t' ∈ (qm_pass fuel cur next changed).1, t'.used = true →
      (∃ t ∈ cur, unmark t' = unmark t ∧ t.used = true) ∨
      ∃ c ∈ (qm_pass fuel cur next changed).2.1,
        ∀ m, covers t' m = true → covers c m = true := by
  induction fuel generalizing cur next changed with
  | zero =>
    have hnil : cur = [] := List.length_eq_zero.mp (Nat.le_zero.mp hfuel)
    subst hnil
    intro t' ht'
    cases ht'
  | succ fuel ih =>
    cases cur with
    | nil =>
      intro t' ht'
      cases ht'
    | cons a rest =>
      have hia : InvImp a := hInv a (List.mem_cons_self _ _)
      have hirest : ∀ b ∈ rest, InvImp b := fun b hb =>
        hInv b (List.mem_cons_of_mem _ hb)
      rcases qm_row_shape a rest next changed with ⟨h1, h2, lrow, h3⟩
      have hlen : (qm_row a rest next changed).2.1.length ≤ fuel := by
        rw [← h2.length_eq]
        simpa using hfuel
      have hInv' : ∀ t ∈ (qm_row a rest next changed).2.1, InvImp t := by
        intro t ht
        rcases forall₂_mem_right h2 ht with ⟨t₀, ht₀, hmt⟩
        rcases hmt with he | he
        · rw [he]; exact hirest t₀ ht₀
        · rw [he]; exact InvImp_set_used (hirest t₀ ht₀)
      rcases qm_pass_shape fuel (qm_row a rest next changed).2.1
          (qm_row a rest next changed).2.2.1 (qm_row a rest next changed).2.2.2 hlen with
        ⟨-, lpass, h5⟩
      intro t' ht' hu
      rw [qm_pass_cons] at ht' ⊢
      rcases List.mem_cons.mp ht' with rfl | ht'
      · -- the row element itself
        rcases (qm_row_used_covered a rest next changed hia hirest).1 hu with
          haused | ⟨c, hc, hcov⟩
        · exact Or.inl ⟨a, List.mem_cons_self _ _, h1.unmark_eq, haused⟩
        · refine Or.inr ⟨c, ?_, fun m hm => hcov m (by rwa [h1.covers_eq] at hm)⟩
          show c ∈ (qm_pass fuel _ _ _).2.1
          rw [h5]
          exact List.mem_append_left _ hc
      · rcases ih (qm_row a rest next changed).2.1 (qm_row a rest next changed).2.2.1
            (qm_row a rest next changed).2.2.2 hlen hInv' t' ht' hu with
          ⟨t, ht, hut, htu⟩ | ⟨c, hc, hcov⟩
        · -- marked already in the row output
          rcases (qm_row_used_covered a rest next changed hia hirest).2 t ht htu with
            ⟨b, hb, hub, hbu⟩ | ⟨c, hc, hcov⟩
          · exact Or.inl ⟨b, List.mem_cons_of_mem _ hb, hut.trans hub, hbu⟩
          · refine Or.inr ⟨c, ?_, fun m hm => hcov m ?_⟩
            · show c ∈ (qm_pass fuel _ _ _).2.1
              rw [h5]
              exact List.mem_append_left _ hc
            · rwa [← covers_eq_of_unmark hut m]
        · exact Or.inr ⟨c, hc, hcov⟩

/-- After a pass, every combinable pair (in list order) is marked. -/
theorem qm_pass_pair_marked (fuel : Nat) (cur next : List Implicant) (changed : Bool)
    (hfuel : cur.length ≤ fuel) :
    List.Pairwise (fun x y => can_combine x y ≠ none → x.used = true ∧ y.used = true)
      (qm_pass fuel cur next changed).1 := by
  induction fuel generalizing cur next changed with
  | zero =>
    have hnil : cur = [] := List.length_eq_zero.mp (Nat.le_zero.mp hfuel)
    subst hnil
    exact List.Pairwise.nil
  | succ fuel ih =>
    cases cur with
    | nil => exact List.Pairwise.nil
    | cons a rest =>
      rcases qm_row_shape a rest next changed with ⟨h1, h2, -⟩
      have hlen : (qm_row a rest next changed).2.1.length ≤ fuel := by
        rw [← h2.length_eq]
        simpa using hfuel
      rcases qm_pass_shape fuel (qm_row a rest next changed).2.1
          (qm_row a rest next changed).2.2.1 (qm_row a rest next changed).2.2.2 hlen with
        ⟨h4, -⟩
      rw [qm_pass_cons]
      refine List.pairwise_cons.mpr ⟨?_, ih _ _ _ hlen⟩
      intro y hy hcomb
      rcases forall₂_mem_right h4 hy with ⟨y', hy', hmy⟩
      have hcomb' : can_combine a y' ≠ none := by
        rw [can_combine_congr_left h1.unmark_eq.symm y',
          can_combine_congr_right hmy.unmark_eq.symm]
        exact hcomb
      rcases qm_row_pair_marked a rest next changed y' hy' hcomb' with ⟨hau, hyu⟩
      exact ⟨hau, hmy.used_mono hyu⟩

/-! ## Lemma layer: prime collection -/

theorem forall₂_mem_left {R : Implicant → Implicant → Prop}
    {l l' : List Implicant} (h : List.Forall₂ R l l') {x : Implicant}
    (hx : x ∈ l) : ∃ y ∈ l', R x y := by
  induction h with
  | nil => cases hx
  | cons hr _ ih =>
    rcases List.mem_cons.mp hx with rfl | hx'
    · exact ⟨_, List.mem_cons_self _ _, hr⟩
    · rcases ih hx' with ⟨y, hy, hRy⟩
      exact ⟨y, List.mem_cons_of_mem _ hy, hRy⟩

theorem term_exists_eq_false {l : List Implicant} {t : Implicant}
    (h : term_exists l t = false) :
    ∀ x ∈ l, ¬(x.value = t.value ∧ x.mask = t.mask) := by
  intro x hx hc
  have : term_exists l t = true := term_exists_iff.mpr ⟨x, hx, hc⟩
  rw [h] at this
  cases this

theorem collect_primes_prefix (cur primes : List Implicant) :
    ∃ l, collect_primes cur primes = primes ++ l := by
  induction cur generalizing primes with
  | nil => exact ⟨[], by simp [collect_primes]⟩
  | cons t rest ih =>
    rw [collect_primes]
    by_cases hu : t.used = true
    · simp only [hu, Bool.not_true, Bool.false_eq_true, if_false]
      exact ih primes
    · have hu' : t.used = false := by
        cases h : t.used
        · rfl
        · exact absurd h hu
      simp only [hu', Bool.not_false, if_true]
      by_cases hte : term_exists primes t = true
      · rw [if_pos hte]
        exact ih primes
      · rw [if_neg hte]
        rcases ih (primes ++ [t]) with ⟨l, hl⟩
        exact ⟨t :: l, by rw [hl, List.append_assoc]; rfl⟩

theorem collect_primes_sound (cur primes : List Implicant) :
    ∀ x ∈ collect_primes cur primes, x ∈ primes ∨ (x ∈ cur ∧ x.used = false) := by
  induction cur generalizing primes with
  | nil =>
    intro x hx
    exact Or.inl hx
  | cons t rest ih =>
    intro x hx
    rw [collect_primes] at hx
    by_cases hu : t.used = true
    · simp only [hu, Bool.not_true, Bool.false_eq_true, if_false] at hx
      rcases ih primes x hx with h | ⟨h1, h2⟩
      · exact Or.inl h
      · exact Or.inr ⟨List.mem_cons_of_mem _ h1, h2⟩
    · have hu' : t.used = false := by
        cases h : t.used
        · rfl
        · exact absurd h hu
      simp only [hu', Bool.not_false, if_true] at hx
      by_cases hte : term_exists primes t = true
      · rw [if_pos hte] at hx
        rcases ih primes x hx with h | ⟨h1, h2⟩
        · exact Or.inl h
        · exact Or.inr ⟨List.mem_cons_of_mem _ h1, h2⟩
      · rw [if_neg hte] at hx
        rcases ih (primes ++ [t]) x hx with h | ⟨h1, h2⟩
        · rcases List.mem_append.mp h with h' | h'
          · exact Or.inl h'
          · have : x = t := by simpa using h'
            exact Or.inr ⟨this ▸ List.mem_cons_self _ _, this ▸ hu'⟩
        · exact Or.inr ⟨List.mem_cons_of_mem _ h1, h2⟩

theorem collect_primes_complete (cur primes : List Implicant) :
    ∀ t ∈ cur, t.used = false →
      ∃ p ∈ collect_primes cur primes, p.value = t.value ∧ p.mask = t.mask := by
  induction cur generalizing primes with
  | nil =>
    intro t ht
    cases ht
  | cons s rest ih =>
    intro t ht htu
    rw [collect_primes]
    rcases List.mem_cons.mp ht with rfl | ht'
    · simp only [htu, Bool.not_false, if_true]
      by_cases hte : term_exists primes t = true
      · rw [if_pos hte]
        rcases term_exists_iff.mp hte with ⟨x, hx, hxv, hxm⟩
        rcases collect_primes_prefix rest primes with ⟨l, hl⟩
        exact ⟨x, by rw [hl]; exact List.mem_append_left _ hx, hxv, hxm⟩
      · rw [if_neg hte]
        rcases collect_primes_prefix rest (primes ++ [t]) with ⟨l, hl⟩
        refine ⟨t, ?_, rfl, rfl⟩
        rw [hl]
        exact List.mem_append_left _ (List.mem_append_right _ (by simp))
    · by_cases hsu : s.used = true
      · simp only [hsu, Bool.not_true, Bool.false_eq_true, if_false]
        exact ih primes t ht' htu
      · have hsu' : s.used = false := by
          cases h : s.used
          · rfl
          · exact absurd h hsu
        simp only [hsu', Bool.not_false, if_true]
        by_cases hte : term_exists primes s = true
        · rw [if_pos hte]
          exact ih primes t ht' htu
        · rw [if_neg hte]
          exact ih (primes ++ [s]) t ht' htu

/-- Coverage through prime collection. -/
theorem collect_primes_coverage (cur primes : List Implicant) (m : Nat) :
    (∃ p ∈ collect_primes cur primes, covers p m = true) ↔
      ((∃ p ∈ primes, covers p m = true) ∨
        ∃ t ∈ cur, t.used = false ∧ covers t m = true) := by
  constructor
  · rintro ⟨p, hp, hpc⟩
    rcases collect_primes_sound cur primes p hp with h | ⟨h1, h2⟩
    · exact Or.inl ⟨p, h, hpc⟩
    · exact Or.inr ⟨p, h1, h2, hpc⟩
  · rintro (⟨p, hp, hpc⟩ | ⟨t, ht, htu, htc⟩)
    · rcases collect_primes_prefix cur primes with ⟨l, hl⟩
      exact ⟨p, by rw [hl]; exact List.mem_append_left _ hp, hpc⟩
    · rcases collect_primes_complete cur primes t ht htu with ⟨p, hp, hpv, hpm⟩
      exact ⟨p, hp, by rw [covers_congr hpv hpm m]; exact htc⟩

/-- Distinctness of `(value, mask)` keys. -/
def KeyDistinct (l : List Implicant) : Prop :=
  List.Pairwise (fun x y => ¬(x.value = y.value ∧ x.mask = y.mask)) l

theorem collect_primes_nodup {cur primes : List Implicant}
    (h : KeyDistinct primes) : KeyDistinct (collect_primes cur primes) := by
  induction cur generalizing primes with
  | nil => exact h
  | cons t rest ih =>
    rw [collect_primes]
    by_cases hu : t.used = true
    · simp only [hu, Bool.not_true, Bool.false_eq_true, if_false]
      exact ih h
    · have hu' : t.used = false := by
        cases hh : t.used
        · rfl
        · exact absurd hh hu
      simp only [hu', Bool.not_false, if_true]
      by_cases hte : term_exists primes t = true
      · rw [if_pos hte]
        exact ih h
      · rw [if_neg hte]
        apply ih
        rw [KeyDistinct, List.pairwise_append]
        refine ⟨h, List.pairwise_singleton _ _, ?_⟩
        intro x hx y hy
        have : y = t := by simpa using hy
        subst this
        exact term_exists_eq_false (Bool.not_eq_true _ ▸ hte) x hx

theorem can_combine_none_of_mask_ne {a b : Implicant} (h : a.mask ≠ b.mask) :
    can_combine a b = none := by
  unfold can_combine
  rw [if_pos h]

/-- Pairwise non-combinability through prime collection. -/
theorem collect_primes_ncc {cur primes : List Implicant}
    (hP : List.Pairwise (fun x y => can_combine x y = none) primes)
    (hcross : ∀ t ∈ cur, t.used = false → ∀ p ∈ primes, can_combine p t = none)
    (hcur : List.Pairwise
      (fun x y => x.used = false → y.used = false → can_combine x y = none) cur) :
    List.Pairwise (fun x y => can_combine x y = none) (collect_primes cur primes) := by
  induction cur generalizing primes with
  | nil => exact hP
  | cons t rest ih =>
    rcases List.pairwise_cons.mp hcur with ⟨hhead, htail⟩
    rw [collect_primes]
    by_cases hu : t.used = true
    · simp only [hu, Bool.not_true, Bool.false_eq_true, if_false]
      exact ih hP (fun s hs hsu p hp => hcross s (List.mem_cons_of_mem _ hs) hsu p hp) htail
    · have hu' : t.used = false := by
        cases hh : t.used
        · rfl
        · exact absurd hh hu
      simp only [hu', Bool.not_false, if_true]
      by_cases hte : term_exists primes t = true
      · rw [if_pos hte]
        exact ih hP (fun s hs hsu p hp => hcross s (List.mem_cons_of_mem _ hs) hsu p hp) htail
      · rw [if_neg hte]
        apply ih
        · rw [List.pairwise_append]
          refine ⟨hP, List.pairwise_singleton _ _, ?_⟩
          intro p hp y hy
          have : y = t := by simpa using hy
          subst this
          exact hcross y (List.mem_cons_self _ _) hu' p hp
        · intro s hs hsu p hp
          rcases List.mem_append.mp hp with hp' | hp'
          · exact hcross s (List.mem_cons_of_mem _ hs) hsu p hp'
          · have : p = t := by simpa using hp'
            subst this
            exact hhead s hs hu' hsu
        · exact htail

/-! ## Lemma layer: the minimization loop -/

theorem qm_loop_succ (fuel : Nat) (current primes : List Implicant) :
    qm_loop (fuel + 1) current primes =
      (if (qm_pass (clear_used current).length (clear_used current) [] false).2.2 = true
       then qm_loop fuel
         (qm_pass (clear_used current).length (clear_used current) [] false).2.1
         (collect_primes
           (qm_pass (clear_used current).length (clear_used current) [] false).1 primes)
       else collect_primes
         (qm_pass (clear_used current).length (clear_used current) [] false).1 primes) :=
  rfl

theorem clear_used_mem {l : List Implicant} {x : Implicant} (hx : x ∈ clear_used l) :
    ∃ x₀ ∈ l, x = unmark x₀ := by
  rcases List.mem_map.mp hx with ⟨x₀, hx₀, rfl⟩
  exact ⟨x₀, hx₀, rfl⟩

theorem clear_used_unused {l : List Implicant} : ∀ x ∈ clear_used l, x.used = false := by
  intro x hx
  rcases clear_used_mem hx with ⟨x₀, -, rfl⟩
  rfl

theorem clear_used_cov {l : List Implicant} {m : Nat} :
    (∃ x ∈ clear_used l, covers x m = true) ↔ ∃ t ∈ l, covers t m = true := by
  constructor
  · rintro ⟨x, hx, hxc⟩
    rcases clear_used_mem hx with ⟨x₀, hx₀, rfl⟩
    exact ⟨x₀, hx₀, by rwa [covers_unmark] at hxc⟩
  · rintro ⟨t, ht, htc⟩
    exact ⟨unmark t, List.mem_map.mpr ⟨t, ht, rfl⟩, by rwa [covers_unmark]⟩

/-- 6-bit normalization survives the whole minimization loop (any fuel). -/
theorem qm_loop_inv (fuel : Nat) (current primes : List Implicant)
    (hc : ∀ t ∈ current, InvImp t) (hp : ∀ t ∈ primes, InvImp t) :
    ∀ t ∈ qm_loop fuel current primes, InvImp t := by
  induction fuel generalizing current primes with
  | zero => exact hp
  | succ fuel ih =>
    intro t ht
    rw [qm_loop_succ] at ht
    set cur := clear_used current with hcur_def
    set r := qm_pass cur.length cur [] false with hr_def
    have hlen : cur.length ≤ cur.length := Nat.le_refl _
    have hcurInv : ∀ x ∈ cur, InvImp x := by
      intro x hx
      rcases clear_used_mem hx with ⟨x₀, hx₀, rfl⟩
      exact InvImp_unmark (hc x₀ hx₀)
    have hpassInv : ∀ x ∈ r.1, InvImp x := by
      intro x hx
      rcases forall₂_mem_right (qm_pass_shape cur.length cur [] false hlen).1 hx with
        ⟨x₀, hx₀, hmx⟩
      rcases hmx with he | he
      · rw [he]; exact hcurInv x₀ hx₀
      · rw [he]; exact InvImp_set_used (hcurInv x₀ hx₀)
    have hnextInv : ∀ c ∈ r.2.1, InvImp c := by
      intro c hcm
      rcases qm_pass_next_sound cur.length cur [] false hlen c hcm with h | ⟨x, hx, y, hy, hxy⟩
      · cases h
      · exact InvImp_combined (hcurInv x hx) (hcurInv y hy) hxy
    have hP2Inv : ∀ x ∈ collect_primes r.1 primes, InvImp x := by
      intro x hx
      rcases collect_primes_sound r.1 primes x hx with h | ⟨h, -⟩
      · exact hp x h
      · exact hpassInv x h
    by_cases hch : r.2.2 = true
    · rw [if_pos hch] at ht
      exact ih r.2.1 (collect_primes r.1 primes) hnextInv hP2Inv t ht
    · rw [if_neg hch] at ht
      exact hP2Inv t ht

/-- The minimization loop neither loses nor gains coverage: the result
covers exactly what the current generation and the collected primes
cover.  `g` is the (uniform) mask population count of the current
generation, which bounds the number of remaining passes. -/
theorem qm_loop_coverage (fuel g : Nat) (current primes : List Implicant)
    (hc : ∀ t ∈ current, InvImp t) (hg : ∀ t ∈ current, popcount6 t.mask = g)
    (hfuel : 7 ≤ fuel + g) (m : Nat) :
    (∃ t ∈ qm_loop fuel current primes, covers t m = true) ↔
      ((∃ t ∈ current, covers t m = true) ∨ ∃ t ∈ primes, covers t m = true) := by
  induction fuel generalizing g current primes with
  | zero =>
    cases current with
    | nil => simp [qm_loop]
    | cons t rest =>
      exfalso
      have h1 := hg t (List.mem_cons_self _ _)
      have h2 := popcount6_le t.mask
      omega
  | succ fuel ih =>
    rw [qm_loop_succ]
    set cur := clear_used current with hcur_def
    set r := qm_pass cur.length cur [] false with hr_def
    have hlen : cur.length ≤ cur.length := Nat.le_refl _
    have hcurInv : ∀ x ∈ cur, InvImp x := by
      intro x hx
      rcases clear_used_mem hx with ⟨x₀, hx₀, rfl⟩
      exact InvImp_unmark (hc x₀ hx₀)
    have hcurg : ∀ x ∈ cur, popcount6 x.mask = g := by
      intro x hx
      rcases clear_used_mem hx with ⟨x₀, hx₀, rfl⟩
      exact hg x₀ hx₀
    have hcurun : ∀ x ∈ cur, x.used = false := clear_used_unused
    have hcurcov : (∃ x ∈ cur, covers x m = true) ↔ ∃ t ∈ current, covers t m = true :=
      clear_used_cov
    by_cases hch : r.2.2 = true
    · rw [if_pos hch]
      have hnextInv : ∀ c ∈ r.2.1, InvImp c := by
        intro c hcm
        rcases qm_pass_next_sound cur.length cur [] false hlen c hcm with
          h | ⟨x, hx, y, hy, hxy⟩
        · cases h
        · exact InvImp_combined (hcurInv x hx) (hcurInv y hy) hxy
      have hnextg : ∀ c ∈ r.2.1, popcount6 c.mask = g + 1 := by
        intro c hcm
        rcases qm_pass_next_sound cur.length cur [] false hlen c hcm with
          h | ⟨x, hx, y, hy, hxy⟩
        · cases h
        · rw [popcount6_combined (hcurInv x hx) (hcurInv y hy) hxy, hcurg x hx]
      rw [ih (g + 1) r.2.1 (collect_primes r.1 primes) hnextInv hnextg (by omega)]
      have hP2cov := collect_primes_coverage r.1 primes m
      constructor
      · rintro (⟨c, hcm, hcc⟩ | hP2)
        · rcases qm_pass_next_sound cur.length cur [] false hlen c hcm with
            h | ⟨x, hx, y, hy, hxy⟩
          · cases h
          · left
            rw [covers_combined (hcurInv x hx) (hcurInv y hy) hxy m] at hcc
            rcases (Bool.or_eq_true _ _).mp hcc with h' | h'
            · exact hcurcov.mp ⟨x, hx, h'⟩
            · exact hcurcov.mp ⟨y, hy, h'⟩
        · rw [hP2cov] at hP2
          rcases hP2 with hpr | ⟨t, htm, htu, htc⟩
          · exact Or.inr hpr
          · left
            rcases forall₂_mem_right (qm_pass_shape cur.length cur [] false hlen).1 htm with
              ⟨t₀, ht₀, hmt⟩
            exact hcurcov.mp ⟨t₀, ht₀, by rw [← hmt.covers_eq m]; exact htc⟩
      · rintro (hcv | hpr)
        · rcases hcurcov.mpr hcv with ⟨x, hx, hxc⟩
          rcases forall₂_mem_left (qm_pass_shape cur.length cur [] false hlen).1 hx with
            ⟨x', hx', hmx⟩
          by_cases hxu : x'.used = true
          · rcases qm_pass_used_covered cur.length cur [] false hlen hcurInv x' hx' hxu with
              ⟨t₀, ht₀, -, hu0⟩ | ⟨c, hcm, hcov⟩
            · rw [hcurun t₀ ht₀] at hu0
              cases hu0
            · exact Or.inl ⟨c, hcm, hcov m (by rw [hmx.covers_eq m]; exact hxc)⟩
          · have hxu' : x'.used = false := by
              cases hh : x'.used
              · rfl
              · exact absurd hh hxu
            right
            rw [hP2cov]
            exact Or.inr ⟨x', hx', hxu', by rw [hmx.covers_eq m]; exact hxc⟩
        · right
          rw [hP2cov]
          exact Or.inl hpr
    · rw [if_neg hch]
      have hch' : r.2.2 = false := by
        cases hh : r.2.2
        · rfl
        · exact absurd hh hch
      have hq : r = (cur, [], false) := by
        rw [hr_def]
        exact qm_pass_quiet cur.length cur (by rw [← hr_def]; exact hch')
      have hr1 : r.1 = cur := by rw [hq]
      rw [hr1, collect_primes_coverage cur primes m]
      constructor
      · rintro (hpr | ⟨t, htm, -, htc⟩)
        · exact Or.inr hpr
        · exact Or.inl (hcurcov.mp ⟨t, htm, htc⟩)
      · rintro (hcv | hpr)
        · rcases hcurcov.mpr hcv with ⟨x, hx, hxc⟩
          exact Or.inr ⟨x, hx, hcurun x hx, hxc⟩
        · exact Or.inl hpr

theorem MarkedOf.mask_eq {t t' : Implicant} (h : MarkedOf t t') : t'.mask = t.mask := by
  rw [← unmark_mask t', ← unmark_mask t, h.unmark_eq]

/-- A row over pairwise non-combinable elements does nothing. -/
theorem qm_row_identity (a : Implicant) (bs next : List Implicant) (changed : Bool)
    (h : ∀ b ∈ bs, can_combine a b = none) :
    qm_row a bs next changed = (a, bs, next, changed) := by
  induction bs with
  | nil => rfl
  | cons b rest ih =>
    have hb := h b (List.mem_cons_self _ _)
    rw [qm_row]
    simp only [hb, row_cons]
    rw [ih (fun x hx => h x (List.mem_cons_of_mem _ hx))]

/-- A pass over a pairwise non-combinable list does nothing. -/
theorem qm_pass_identity (P : List Implicant) (next : List Implicant) (changed : Bool)
    (hn : List.Pairwise (fun x y => can_combine x y = none) P) :
    qm_pass P.length P next changed = (P, next, changed) := by
  induction P generalizing next changed with
  | nil => rfl
  | cons a rest ih =>
    rcases List.pairwise_cons.mp hn with ⟨hhead, htail⟩
    show qm_pass (rest.length + 1) (a :: rest) next changed = (a :: rest, next, changed)
    rw [qm_pass_cons, qm_row_identity a rest next changed hhead]
    simp only
    rw [ih next changed htail]

theorem collect_primes_identity (P acc : List Implicant)
    (hu : ∀ p ∈ P, p.used = false) (hk : KeyDistinct P)
    (hcross : ∀ t ∈ P, ∀ x ∈ acc, ¬(x.value = t.value ∧ x.mask = t.mask)) :
    collect_primes P acc = acc ++ P := by
  induction P generalizing acc with
  | nil => simp [collect_primes]
  | cons t rest ih =>
    rcases List.pairwise_cons.mp hk with ⟨hhead, htail⟩
    rw [collect_primes]
    have htu : t.used = false := hu t (List.mem_cons_self _ _)
    simp only [htu, Bool.not_false, if_true]
    have hte : term_exists acc t = false := by
      cases hh : term_exists acc t
      · rfl
      · rcases term_exists_iff.mp hh with ⟨x, hx, hxk⟩
        exact absurd hxk (hcross t (List.mem_cons_self _ _) x hx)
    rw [if_neg (by rw [hte]; intro hc; cases hc)]
    rw [ih (acc ++ [t]) (fun p hp => hu p (List.mem_cons_of_mem _ hp)) htail]
    · rw [List.append_assoc]
      rfl
    · intro s hs x hx
      rcases List.mem_append.mp hx with hx' | hx'
      · exact hcross s (List.mem_cons_of_mem _ hs) x hx'
      · have : x = t := by simpa using hx'
        subst this
        intro hc
        exact hhead s hs hc

/-- Primality of the loop's output: distinct keys, pairwise
non-combinable, and all flags clear. -/
theorem qm_loop_prime (fuel g : Nat) (current primes : List Implicant)
    (hc : ∀ t ∈ current, InvImp t) (hg : ∀ t ∈ current, popcount6 t.mask = g)
    (hfuel : 7 ≤ fuel + g)
    (hpk : KeyDistinct primes)
    (hpn : List.Pairwise (fun x y => can_combine x y = none) primes)
    (hpg : ∀ p ∈ primes, popcount6 p.mask < g)
    (hpu : ∀ p ∈ primes, p.used = false) :
    KeyDistinct (qm_loop fuel current primes) ∧
    List.Pairwise (fun x y => can_combine x y = none) (qm_loop fuel current primes) ∧
    ∀ p ∈ qm_loop fuel current primes, p.used = false := by
  induction fuel generalizing g current primes with
  | zero =>
    cases current with
    | nil => exact ⟨hpk, hpn, hpu⟩
    | cons t rest =>
      exfalso
      have h1 := hg t (List.mem_cons_self _ _)
      have h2 := popcount6_le t.mask
      omega
  | succ fuel ih =>
    rw [qm_loop_succ]
    set cur := clear_used current with hcur_def
    set r := qm_pass cur.length cur [] false with hr_def
    have hlen : cur.length ≤ cur.length := Nat.le_refl _
    have hcurInv : ∀ x ∈ cur, InvImp x := by
      intro x hx
      rcases clear_used_mem hx with ⟨x₀, hx₀, rfl⟩
      exact InvImp_unmark (hc x₀ hx₀)
    have hcurg : ∀ x ∈ cur, popcount6 x.mask = g := by
      intro x hx
      rcases clear_used_mem hx with ⟨x₀, hx₀, rfl⟩
      exact hg x₀ hx₀
    have hr1g : ∀ t ∈ r.1, popcount6 t.mask = g := by
      intro t ht
      rcases forall₂_mem_right (qm_pass_shape cur.length cur [] false hlen).1 ht with
        ⟨t₀, ht₀, hmt⟩
      rw [hmt.mask_eq]
      exact hcurg t₀ ht₀
    have hcross : ∀ t ∈ r.1, t.used = false → ∀ p ∈ primes, can_combine p t = none := by
      intro t ht _htu p hp
      apply can_combine_none_of_mask_ne
      intro he
      have h1 := hpg p hp
      have h2 := hr1g t ht
      rw [he, h2] at h1
      omega
    have hcur_pw : List.Pairwise
        (fun x y => x.used = false → y.used = false → can_combine x y = none) r.1 := by
      refine (qm_pass_pair_marked cur.length cur [] false hlen).imp ?_
      intro x y hxy hxu hyu
      cases hcc : can_combine x y with
      | none => rfl
      | some c =>
        rcases hxy (by rw [hcc]; intro hc; cases hc) with ⟨h1, -⟩
        rw [hxu] at h1
        cases h1
    have hP2k : KeyDistinct (collect_primes r.1 primes) := collect_primes_nodup hpk
    have hP2n : List.Pairwise (fun x y => can_combine x y = none)
        (collect_primes r.1 primes) := collect_primes_ncc hpn hcross hcur_pw
    have hP2u : ∀ p ∈ collect_primes r.1 primes, p.used = false := by
      intro p hp
      rcases collect_primes_sound r.1 primes p hp with h | ⟨-, h⟩
      · exact hpu p h
      · exact h
    have hP2g : ∀ p ∈ collect_primes r.1 primes, popcount6 p.mask < g + 1 := by
      intro p hp
      rcases collect_primes_sound r.1 primes p hp with h | ⟨h, -⟩
      · have := hpg p h
        omega
      · have := hr1g p h
        omega
    by_cases hch : r.2.2 = true
    · rw [if_pos hch]
      have hnextInv : ∀ c ∈ r.2.1, InvImp c := by
        intro c hcm
        rcases qm_pass_next_sound cur.length cur [] false hlen c hcm with
          h | ⟨x, hx, y, hy, hxy⟩
        · cases h
        · exact InvImp_combined (hcurInv x hx) (hcurInv y hy) hxy
      have hnextg : ∀ c ∈ r.2.1, popcount6 c.mask = g + 1 := by
        intro c hcm
        rcases qm_pass_next_sound cur.length cur [] false hlen c hcm with
          h | ⟨x, hx, y, hy, hxy⟩
        · cases h
        · rw [popcount6_combined (hcurInv x hx) (hcurInv y hy) hxy, hcurg x hx]
      exact ih (g + 1) r.2.1 (collect_primes r.1 primes) hnextInv hnextg (by omega)
        hP2k hP2n hP2g hP2u
    · rw [if_neg hch]
      exact ⟨hP2k, hP2n, hP2u⟩

/-! ## Lemma layer: `Minimizer_FindPrimeImplicants` corollaries -/

theorem covers_init {v m : Nat} (hv : v < 64) (hm : m < 64) :
    covers ⟨v, 0, false, false⟩ m = true ↔ m = v := by
  rw [covers_iff]
  constructor
  · intro h
    apply low_eq_of_bits hm hv
    intro bit hbit
    rcases h bit hbit with h0 | h1
    · rw [Nat.zero_testBit] at h0
      cases h0
    · exact h1
  · rintro rfl
    intro bit hbit
    exact Or.inr rfl

theorem init_inv {tt : List Nat} (h : ∀ x ∈ tt, x < 64) :
    ∀ t ∈ tt.map (fun m => (⟨m, 0, false, false⟩ : Implicant)), InvImp t := by
  intro t ht
  rcases List.mem_map.mp ht with ⟨v, hv, rfl⟩
  exact ⟨h v hv, by norm_num, by simp⟩

/-! ## Lemma layer: the full run on the constant-true truth table

For the all-64-minterm table every generation `g` of the merge loop is the
complete set of canonical cubes with `g` dashes: every cube merges with a
partner (so no primes are collected before the end), and every
`(g+1)`-dash cube arises as a merge, until only the blanket cube is left.
These lemmas compute `Minimizer_FindPrimeImplicants` on that input without
evaluating the loop. -/

theorem popcount6_six {μ : Nat} (hμ : μ < 64) (h : popcount6 μ = 6) : μ = 63 := by
  have h6 : ∀ x : Fin 64, popcount6 x.val = 6 → x.val = 63 := by decide
  exact h6 ⟨μ, hμ⟩ h

theorem popcount6_zero {μ : Nat} (hμ : μ < 64) (h : popcount6 μ = 0) : μ = 0 := by
  have h0 : ∀ x : Fin 64, popcount6 x.val = 0 → x.val = 0 := by decide
  exact h0 ⟨μ, hμ⟩ h

theorem popcount6_lt_bit {μ : Nat} (hμ : μ < 64) (h : popcount6 μ < 6) :
    ∃ b, b < 6 ∧ μ.testBit b = false := by
  have hf : ∀ x : Fin 64, popcount6 x.val < 6 →
      ∃ b : Fin 6, x.val.testBit b.val = false := by decide
  rcases hf ⟨μ, hμ⟩ h with ⟨b, hb⟩
  exact ⟨b.val, b.isLt, hb⟩

theorem popcount6_pos_bit {μ : Nat} (hμ : μ < 64) (h : 1 ≤ popcount6 μ) :
    ∃ b, b < 6 ∧ μ.testBit b = true := by
  have hf : ∀ x : Fin 64, 1 ≤ popcount6 x.val →
      ∃ b : Fin 6, x.val.testBit b.val = true := by decide
  rcases hf ⟨μ, hμ⟩ h with ⟨b, hb⟩
  exact ⟨b.val, b.isLt, hb⟩

theorem and63_zero {v : Nat} (hv : v < 64) (h : v &&& 63 = 0) : v = 0 := by
  have h0 : ∀ x : Fin 64, x.val &&& 63 = 0 → x.val = 0 := by decide
  exact h0 ⟨v, hv⟩ h

theorem pow_facts : ∀ b : Fin 6, (2 : Nat) ^ b.val < 64 ∧
    2 ^ b.val &&& (2 ^ b.val - 1) = 0 ∧ (2 : Nat) ^ b.val ≠ 0 := by decide

theorem low_mask_facts : ∀ g : Fin 7, popcount6 (2 ^ g.val - 1) = g.val ∧
    (2 : Nat) ^ g.val - 1 < 64 := by decide

theorem clearbit_facts {μ : Nat} (hμ : μ < 64) {b : Nat} (hb : b < 6)
    (h : μ.testBit b = true) :
    (μ ^^^ 2 ^ b) ||| 2 ^ b = μ ∧ (μ ^^^ 2 ^ b).testBit b = false ∧
      μ ^^^ 2 ^ b < 64 ∧ popcount6 (μ ^^^ 2 ^ b) + 1 = popcount6 μ := by
  have hf : ∀ (x : Fin 64) (c : Fin 6), x.val.testBit c.val = true →
      (x.val ^^^ 2 ^ c.val) ||| 2 ^ c.val = x.val ∧
      (x.val ^^^ 2 ^ c.val).testBit c.val = false ∧
      x.val ^^^ 2 ^ c.val < 64 ∧
      popcount6 (x.val ^^^ 2 ^ c.val) + 1 = popcount6 x.val := by decide
  exact hf ⟨μ, hμ⟩ ⟨b, hb⟩ h

theorem xor_xor_cancel (v p : Nat) : v ^^^ (v ^^^ p) = p := by
  rw [← Nat.xor_assoc, Nat.xor_self, Nat.zero_xor]

theorem xor_pow_ne (v b : Nat) : v ^^^ 2 ^ b ≠ v := by
  intro h
  have hb := congrArg (fun n => n.testBit b) h
  simp only [Nat.testBit_xor, Nat.testBit_two_pow_self] at hb
  cases hvb : v.testBit b <;> rw [hvb] at hb <;> simp at hb

theorem xor_pow_lt {v b : Nat} (hv : v < 64) (hb : b < 6) : v ^^^ 2 ^ b < 64 :=
  @Nat.xor_lt_two_pow _ _ 6 hv (pow_facts ⟨b, hb⟩).1

theorem and_pow_zero {v b : Nat} (hvb : v.testBit b = false) : v &&& 2 ^ b = 0 := by
  apply Nat.eq_of_testBit_eq
  intro i
  rw [Nat.testBit_and, Nat.zero_testBit]
  by_cases hib : i = b
  · subst hib
    rw [hvb, Bool.false_and]
  · rw [Nat.testBit_two_pow_of_ne (fun h => hib h.symm), Bool.and_false]

theorem and_zero_bit {v μ b : Nat} (hvμ : v &&& μ = 0) (hbit : μ.testBit b = true) :
    v.testBit b = false := by
  have h := congrArg (fun n => n.testBit b) hvμ
  simpa [Nat.testBit_and, hbit] using h

theorem partner_and_zero {v μ b : Nat}
    (hvμ : v &&& μ = 0) (hbit : μ.testBit b = false) :
    (v ^^^ 2 ^ b) &&& μ = 0 := by
  apply Nat.eq_of_testBit_eq
  intro i
  rw [Nat.testBit_and, Nat.testBit_xor, Nat.zero_testBit]
  by_cases hib : i = b
  · subst hib
    rw [hbit, Bool.and_false]
  · rw [Nat.testBit_two_pow_of_ne (fun h => hib h.symm), Bool.xor_false]
    have h := congrArg (fun n => n.testBit i) hvμ
    simpa [Nat.testBit_and] using h

theorem and_xor_pow_zero {v μ b : Nat}
    (hvμ : v &&& μ = 0) (hbit : μ.testBit b = true) :
    v &&& (μ ^^^ 2 ^ b) = 0 := by
  apply Nat.eq_of_testBit_eq
  intro i
  rw [Nat.testBit_and, Nat.testBit_xor, Nat.zero_testBit]
  by_cases hib : i = b
  · subst hib
    rw [and_zero_bit hvμ hbit, Bool.false_and]
  · rw [Nat.testBit_two_pow_of_ne (fun h => hib h.symm), Bool.xor_false]
    have h := congrArg (fun n => n.testBit i) hvμ
    simpa [Nat.testBit_and] using h

/-- Two cubes with equal masks whose values differ exactly in one bit
merge; the merged cube is computed field by field. -/
theorem cc_partner_some {x y : Implicant} {b : Nat} (hb : b < 6)
    (hym : y.mask = x.mask) (hyv : y.value = x.value ^^^ 2 ^ b) :
    can_combine x y = some ⟨x.value ^^^ (x.value &&& 2 ^ b),
      x.mask ||| 2 ^ b, false, false⟩ := by
  have hdiff : x.value ^^^ y.value = 2 ^ b := by rw [hyv, xor_xor_cancel]
  apply can_combine_eq_some.mpr
  refine ⟨hym.symm, ?_, ?_, ?_⟩
  · rw [hdiff]
    exact (pow_facts ⟨b, hb⟩).2.2
  · rw [hdiff]
    exact (pow_facts ⟨b, hb⟩).2.1
  · rw [hdiff]

/-- The merged cube of the swapped pair has the same key. -/
theorem cc_symm_key {x y c : Implicant} (hcc : can_combine x y = some c) :
    ∃ d, can_combine y x = some d ∧ d.value = c.value ∧ d.mask = c.mask := by
  rcases can_combine_eq_some.mp hcc with ⟨hm, hd0, hdp, rfl⟩
  refine ⟨⟨y.value ^^^ (y.value &&& (y.value ^^^ x.value)),
    y.mask ||| (y.value ^^^ x.value), false, false⟩,
    can_combine_eq_some.mpr ⟨hm.symm, ?_, ?_, rfl⟩, ?_, ?_⟩
  · rw [Nat.xor_comm]
    exact hd0
  · rw [Nat.xor_comm y.value x.value]
    exact hdp
  · show y.value ^^^ (y.value &&& (y.value ^^^ x.value)) =
      x.value ^^^ (x.value &&& (x.value ^^^ y.value))
    apply Nat.eq_of_testBit_eq
    intro i
    simp only [Nat.testBit_xor, Nat.testBit_and]
    cases hxi : x.value.testBit i <;> cases hyi : y.value.testBit i <;> rfl
  · show y.mask ||| (y.value ^^^ x.value) = x.mask ||| (x.value ^^^ y.value)
    rw [hm, Nat.xor_comm]

theorem pairwise_of_mem {R : Implicant → Implicant → Prop} :
    ∀ (l : List Implicant), (∀ x ∈ l, ∀ y ∈ l, R x y) → l.Pairwise R := by
  intro l
  induction l with
  | nil => intro _; exact List.Pairwise.nil
  | cons a t ih =>
    intro h
    refine List.Pairwise.cons ?_ (ih ?_)
    · intro y hy
      exact h a (List.mem_cons_self a t) y (List.mem_cons_of_mem a hy)
    · intro x hx y hy
      exact h x (List.mem_cons_of_mem a hx) y (List.mem_cons_of_mem a hy)

/-- When every element of the current generation has a single-bit partner
in it, the pass marks everything used. -/
theorem qm_pass_all_used (cur : List Implicant)
    (hpart : ∀ x ∈ cur, ∃ y ∈ cur, y.mask = x.mask ∧
      ∃ b, b < 6 ∧ y.value = x.value ^^^ 2 ^ b) :
    ∀ t ∈ (qm_pass cur.length cur [] false).1, t.used = true := by
  intro t ht
  have hshape := qm_pass_shape cur.length cur [] false (Nat.le_refl _)
  rcases forall₂_mem_right hshape.1 ht with ⟨x, hx, hmx⟩
  rcases hpart x hx with ⟨y, hy, hym, b, hb, hyv⟩
  rcases forall₂_mem_left hshape.1 hy with ⟨y', hy', hmy⟩
  have hsymm : Symmetric (fun u w : Implicant =>
      can_combine u w ≠ none → u.used = true ∧ w.used = true) := by
    intro u w h hcc
    have h2 : can_combine u w ≠ none := fun hn => hcc (can_combine_none_symm hn)
    exact ⟨(h h2).2, (h h2).1⟩
  have hpw := qm_pass_pair_marked cur.length cur [] false (Nat.le_refl _)
  have htv : t.value = x.value := by
    rw [← unmark_value t, hmx.unmark_eq, unmark_value]
  have htm : t.mask = x.mask := by
    rw [← unmark_mask t, hmx.unmark_eq, unmark_mask]
  have hyv' : y'.value = y.value := by
    rw [← unmark_value y', hmy.unmark_eq, unmark_value]
  have hym' : y'.mask = y.mask := by
    rw [← unmark_mask y', hmy.unmark_eq, unmark_mask]
  have hcc_t : can_combine t y' ≠ none := by
    rw [cc_partner_some hb (show y'.mask = t.mask by rw [hym', hym, htm])
      (show y'.value = t.value ^^^ 2 ^ b by rw [hyv', hyv, htv])]
    exact Option.some_ne_none _
  have hne : t ≠ y' := by
    intro h
    have hvv : t.value = y'.value := by rw [h]
    rw [htv, hyv', hyv] at hvv
    exact xor_pow_ne x.value b hvv.symm
  exact (List.Pairwise.forall hsymm hpw ht hy' hne hcc_t).1

/-- A merge found by the row lands (up to key) in the row's `next`. -/
theorem qm_row_merge_next :
    ∀ (bs : List Implicant) (a : Implicant) (next : List Implicant)
      (changed : Bool) (b c : Implicant), b ∈ bs → can_combine a b = some c →
      ∃ t ∈ (qm_row a bs next changed).2.2.1, t.value = c.value ∧ t.mask = c.mask := by
  intro bs
  induction bs with
  | nil =>
    intro a next changed b c hb
    cases hb
  | cons b0 bs ih =>
    intro a next changed b c hb hcc
    rcases List.mem_cons.mp hb with rfl | hb'
    · by_cases hte : term_exists next c = true
      · rcases term_exists_iff.mp hte with ⟨t, ht, htv, htm⟩
        rcases (qm_row_shape (set_used a) bs next changed).2.2 with ⟨l, hl⟩
        refine ⟨t, ?_, htv, htm⟩
        simp only [qm_row, hcc, hte, if_true, row_cons]
        rw [hl]
        exact List.mem_append_left l ht
      · have hte' : term_exists next c = false := by
          cases h : term_exists next c
          · rfl
          · exact absurd h hte
        rcases (qm_row_shape (set_used a) bs (next ++ [c]) true).2.2 with ⟨l, hl⟩
        refine ⟨c, ?_, rfl, rfl⟩
        simp only [qm_row, hcc, hte', Bool.false_eq_true, if_false, row_cons]
        rw [hl]
        exact List.mem_append_left l (List.mem_append_right next (by simp))
    · cases hcc0 : can_combine a b0 with
      | some c0 =>
        have hcc' : can_combine (set_used a) b = some c := by
          rw [can_combine_set_used_left]
          exact hcc
        by_cases hte : term_exists next c0 = true
        · rcases ih (set_used a) next changed b c hb' hcc' with ⟨t, ht, htv, htm⟩
          refine ⟨t, ?_, htv, htm⟩
          simp only [qm_row, hcc0, hte, if_true, row_cons]
          exact ht
        · have hte' : term_exists next c0 = false := by
            cases h : term_exists next c0
            · rfl
            · exact absurd h hte
          rcases ih (set_used a) (next ++ [c0]) true b c hb' hcc' with ⟨t, ht, htv, htm⟩
          refine ⟨t, ?_, htv, htm⟩
          simp only [qm_row, hcc0, hte', Bool.false_eq_true, if_false, row_cons]
          exact ht
      | none =>
        rcases ih a next changed b c hb' hcc with ⟨t, ht, htv, htm⟩
        refine ⟨t, ?_, htv, htm⟩
        simp only [qm_row, hcc0, row_cons]
        exact ht

/-- A merge between any two elements of the current generation lands (up
to key) in the pass's `next`. -/
theorem qm_pass_merge_next :
    ∀ (fuel : Nat) (cur next : List Implicant) (changed : Bool)
      (x y c : Implicant), cur.length ≤ fuel → x ∈ cur → y ∈ cur →
      can_combine x y = some c →
      ∃ t ∈ (qm_pass fuel cur next changed).2.1, t.value = c.value ∧ t.mask = c.mask := by
  intro fuel
  induction fuel with
  | zero =>
    intro cur next changed x y c hfuel hx hy hcc
    have hnil : cur = [] := List.length_eq_zero.mp (Nat.le_zero.mp hfuel)
    subst hnil
    cases hx
  | succ fuel ih =>
    intro cur next changed x y c hfuel hx hy hcc
    have hvne : x.value ≠ y.value := by
      rcases can_combine_eq_some.mp hcc with ⟨-, hd, -, -⟩
      intro h
      rw [h, Nat.xor_self] at hd
      exact hd rfl
    cases cur with
    | nil => cases hx
    | cons a rest =>
      have hlen : rest.length ≤ fuel := by
        simp only [List.length_cons] at hfuel
        omega
      rw [qm_pass_cons]
      show ∃ t ∈ (qm_pass fuel (qm_row a rest next changed).2.1
        (qm_row a rest next changed).2.2.1 (qm_row a rest next changed).2.2.2).2.1,
        t.value = c.value ∧ t.mask = c.mask
      have hrow := qm_row_shape a rest next changed
      have hlen2 : (qm_row a rest next changed).2.1.length ≤ fuel := by
        rw [← List.Forall₂.length_eq hrow.2.1]
        exact hlen
      rcases (qm_pass_shape fuel (qm_row a rest next changed).2.1
        (qm_row a rest next changed).2.2.1 (qm_row a rest next changed).2.2.2
        hlen2).2 with ⟨l2, hl2⟩
      rcases List.mem_cons.mp hx with rfl | hx'
      · rcases List.mem_cons.mp hy with rfl | hy'
        · exact absurd rfl hvne
        · rcases qm_row_merge_next rest x next changed y c hy' hcc
            with ⟨t, ht, htv, htm⟩
          refine ⟨t, ?_, htv, htm⟩
          rw [hl2]
          exact List.mem_append_left l2 ht
      · rcases List.mem_cons.mp hy with rfl | hy'
        · rcases cc_symm_key hcc with ⟨d, hcc', hdv, hdm⟩
          rcases qm_row_merge_next rest y next changed x d hx' hcc'
            with ⟨t, ht, htv, htm⟩
          refine ⟨t, ?_, htv.trans hdv, htm.trans hdm⟩
          rw [hl2]
          exact List.mem_append_left l2 ht
        · rcases forall₂_mem_left hrow.2.1 hx' with ⟨x', hx'', hmx⟩
          rcases forall₂_mem_left hrow.2.1 hy' with ⟨y', hy'', hmy⟩
          have hcc' : can_combine x' y' = some c := by
            rw [can_combine_congr_left hmx.unmark_eq y',
              can_combine_congr_right hmy.unmark_eq]
            exact hcc
          exact ih (qm_row a rest next changed).2.1
            (qm_row a rest next changed).2.2.1 (qm_row a rest next changed).2.2.2
            x' y' c hlen2 hx'' hy'' hcc'

theorem collect_primes_all_used :
    ∀ (l primes : List Implicant), (∀ t ∈ l, t.used = true) →
      collect_primes l primes = primes := by
  intro l
  induction l with
  | nil =>
    intro primes _
    rfl
  | cons a t ih =>
    intro primes h
    have ha : a.used = true := h a (List.mem_cons_self a t)
    rw [collect_primes, if_neg ?_]
    · exact ih primes (fun x hx => h x (List.mem_cons_of_mem a hx))
    · rw [ha]
      decide

theorem collect_primes_const_aux {c : Implicant} :
    ∀ (l : List Implicant), (∀ t ∈ l, t = c) → collect_primes l [c] = [c] := by
  intro l
  induction l with
  | nil =>
    intro _
    rfl
  | cons a t ih =>
    intro h
    have ha : a = c := h a (List.mem_cons_self a t)
    subst ha
    have hrest : ∀ x ∈ t, x = a := fun x hx => h x (List.mem_cons_of_mem a hx)
    have hte : term_exists [a] a = true := by
      simp [term_exists]
    rw [collect_primes]
    by_cases hu : (!a.used) = true
    · rw [if_pos hu, if_pos hte]
      exact ih hrest
    · rw [if_neg hu]
      exact ih hrest

theorem collect_primes_const {c : Implicant} (hcu : c.used = false)
    (l : List Implicant) (hall : ∀ t ∈ l, t = c) (hne : l ≠ []) :
    collect_primes l [] = [c] := by
  cases l with
  | nil => exact absurd rfl hne
  | cons a t =>
    have ha : a = c := hall a (List.mem_cons_self a t)
    subst ha
    have hu : (!a.used) = true := by
      rw [hcu]
      rfl
    have hte : term_exists [] a = false := rfl
    rw [collect_primes, if_pos hu]
    simp only [hte, Bool.false_eq_true, if_false]
    show collect_primes t [a] = [a]
    exact collect_primes_const_aux t (fun x hx => hall x (List.mem_cons_of_mem a hx))

theorem GenInv_clear {g : Nat} {cur : List Implicant} (h : GenInv g cur) :
    GenInv g (clear_used cur) := by
  constructor
  · intro t ht
    rcases clear_used_mem ht with ⟨t₀, ht₀, rfl⟩
    rcases h.1 t₀ ht₀ with ⟨hI, hpc, hess⟩
    exact ⟨InvImp_unmark hI, hpc, hess⟩
  · intro v μ hv hμ hvμ hpc
    rcases h.2 v μ hv hμ hvμ hpc with ⟨t, ht, htv, htm⟩
    exact ⟨unmark t, List.mem_map_of_mem unmark ht, htv, htm⟩

theorem qm_loop_step2 (fuel : Nat) (current primes : List Implicant)
    (hch : (qm_pass (clear_used current).length (clear_used current) [] false).2.2 =
      true)
    (hc : collect_primes
      (qm_pass (clear_used current).length (clear_used current) [] false).1 primes =
      primes) :
    qm_loop (fuel + 1) current primes =
      qm_loop fuel
        (qm_pass (clear_used current).length (clear_used current) [] false).2.1
        primes := by
  rw [qm_loop_succ, if_pos hch, hc]

theorem qm_loop_stop2 (fuel : Nat) (current primes : List Implicant)
    (hch : (qm_pass (clear_used current).length (clear_used current) [] false).2.2 =
      false) :
    qm_loop (fuel + 1) current primes =
      collect_primes
        (qm_pass (clear_used current).length (clear_used current) [] false).1
        primes := by
  rw [qm_loop_succ, if_neg (by simp [hch])]

/-- The merge loop on a full generation: the remaining passes shrink the
cubes until only the blanket cube `(0, 63)` is collected. -/
theorem qm_loop_gen (k : Nat) :
    ∀ (fuel g : Nat) (cur : List Implicant), g + k = 6 → k < fuel → GenInv g cur →
      qm_loop fuel cur [] = [⟨0, 63, false, false⟩] := by
  induction k with
  | zero =>
    intro fuel g cur hg hfuel hinv
    have hg6 : g = 6 := by omega
    subst hg6
    cases fuel with
    | zero => exact absurd hfuel (Nat.lt_irrefl 0)
    | succ fuel =>
      have hall : ∀ t ∈ clear_used cur, t = (⟨0, 63, false, false⟩ : Implicant) := by
        intro t ht
        rcases clear_used_mem ht with ⟨t₀, ht₀, rfl⟩
        rcases hinv.1 t₀ ht₀ with ⟨hI, hpc, hess⟩
        have hm : t₀.mask = 63 := popcount6_six hI.2.1 hpc
        have hv : t₀.value = 0 := and63_zero hI.1 (by rw [← hm]; exact hI.2.2)
        rw [unmark, hv, hm, hess]
      have hne : clear_used cur ≠ [] := by
        rcases hinv.2 0 63 (by omega) (by omega) (by decide) (by decide)
          with ⟨t0, ht0, -, -⟩
        intro h
        have hm0 : unmark t0 ∈ clear_used cur := List.mem_map_of_mem unmark ht0
        rw [h] at hm0
        cases hm0
      have hid : qm_pass (clear_used cur).length (clear_used cur) [] false =
          (clear_used cur, [], false) := by
        apply qm_pass_identity
        apply pairwise_of_mem
        intro x hx y hy
        rw [hall x hx, hall y hy]
        decide
      refine (qm_loop_stop2 fuel cur [] (by rw [hid])).trans ?_
      rw [hid]
      show collect_primes (clear_used cur) [] = _
      exact collect_primes_const rfl (clear_used cur) hall hne
  | succ k ih =>
    intro fuel g cur hg hfuel hinv
    cases fuel with
    | zero => exact absurd hfuel (Nat.not_lt_zero _)
    | succ fuel =>
      have hg6 : g < 6 := by omega
      have hclear := GenInv_clear hinv
      have hpart : ∀ x ∈ clear_used cur, ∃ y ∈ clear_used cur, y.mask = x.mask ∧
          ∃ b, b < 6 ∧ y.value = x.value ^^^ 2 ^ b := by
        intro x hx
        rcases hclear.1 x hx with ⟨hI, hpc, -⟩
        rcases popcount6_lt_bit hI.2.1 (by omega) with ⟨b, hb, hbit⟩
        rcases hclear.2 (x.value ^^^ 2 ^ b) x.mask (xor_pow_lt hI.1 hb) hI.2.1
          (partner_and_zero hI.2.2 hbit) hpc with ⟨y, hy, hyv, hym⟩
        exact ⟨y, hy, hym, b, hb, hyv⟩
      have hused := qm_pass_all_used (clear_used cur) hpart
      -- one merge certainly happens, so the pass reports a change
      have hlm := low_mask_facts ⟨g, by omega⟩
      obtain ⟨x₀, hx₀, hx₀v, hx₀m⟩ := hclear.2 0 (2 ^ g - 1) (by omega) hlm.2
        (by rw [Nat.zero_and]) hlm.1
      obtain ⟨y₀, hy₀, hym₀, b₀, hb₀, hyv₀⟩ := hpart x₀ hx₀
      obtain ⟨tm, htm, -, -⟩ := qm_pass_merge_next (clear_used cur).length
        (clear_used cur) [] false x₀ y₀ _ (Nat.le_refl _) hx₀ hy₀
        (cc_partner_some hb₀ hym₀ hyv₀)
      have hch : (qm_pass (clear_used cur).length (clear_used cur) [] false).2.2 =
          true := by
        cases hc : (qm_pass (clear_used cur).length (clear_used cur) [] false).2.2
        · exfalso
          have hq := qm_pass_quiet (clear_used cur).length (clear_used cur) hc
          rw [hq] at htm
          simp at htm
        · rfl
      have hnext : GenInv (g + 1)
          (qm_pass (clear_used cur).length (clear_used cur) [] false).2.1 := by
        constructor
        · intro c hcmem
          rcases qm_pass_next_sound (clear_used cur).length (clear_used cur) [] false
            (Nat.le_refl _) c hcmem with hcn | ⟨x, hx, y, hy, hcc⟩
          · cases hcn
          · rcases hclear.1 x hx with ⟨hIx, hpcx, -⟩
            rcases hclear.1 y hy with ⟨hIy, -, -⟩
            refine ⟨InvImp_combined hIx hIy hcc, ?_, ?_⟩
            · rw [popcount6_combined hIx hIy hcc, hpcx]
            · rcases can_combine_eq_some.mp hcc with ⟨-, -, -, rfl⟩
              rfl
        · intro v μ hv hμ hvμ hpc
          rcases popcount6_pos_bit hμ (by omega) with ⟨b, hb, hbit⟩
          rcases clearbit_facts hμ hb hbit with ⟨hor, hbit', hlt', hpc'⟩
          have hpcμ0 : popcount6 (μ ^^^ 2 ^ b) = g := by omega
          have hvb : v.testBit b = false := and_zero_bit hvμ hbit
          have hv0 : v &&& (μ ^^^ 2 ^ b) = 0 := and_xor_pow_zero hvμ hbit
          obtain ⟨x, hx, hxv, hxm⟩ := hclear.2 v (μ ^^^ 2 ^ b) hv hlt' hv0 hpcμ0
          obtain ⟨y, hy, hyv, hym⟩ := hclear.2 (v ^^^ 2 ^ b) (μ ^^^ 2 ^ b)
            (xor_pow_lt hv hb) hlt' (partner_and_zero hv0 hbit') hpcμ0
          have hcc : can_combine x y = some ⟨v, μ, false, false⟩ := by
            rw [cc_partner_some hb (show y.mask = x.mask by rw [hym, hxm])
              (show y.value = x.value ^^^ 2 ^ b by rw [hyv, hxv]),
              hxv, hxm, and_pow_zero hvb, Nat.xor_zero, hor]
          obtain ⟨t, ht, htv, htm⟩ := qm_pass_merge_next (clear_used cur).length
            (clear_used cur) [] false x y _ (Nat.le_refl _) hx hy hcc
          exact ⟨t, ht, htv, htm⟩
      refine (qm_loop_step2 fuel cur [] hch
        (collect_primes_all_used _ [] hused)).trans ?_
      exact ih fuel (g + 1) _ (by omega) (by omega) hnext

theorem GenInv_init :
    GenInv 0 ((List.range 64).map (fun m => ⟨m, 0, false, false⟩)) := by
  constructor
  · intro t ht
    rcases List.mem_map.mp ht with ⟨m, hm, rfl⟩
    have hm64 : m < 64 := List.mem_range.mp hm
    refine ⟨⟨hm64, ?_, Nat.and_zero m⟩, ?_, rfl⟩
    · show (0 : Nat) < 64
      decide
    · show popcount6 0 = 0
      decide
  · intro v μ hv hμ hvμ hpc
    have hμ0 : μ = 0 := popcount6_zero hμ hpc
    subst hμ0
    exact ⟨⟨v, 0, false, false⟩,
      List.mem_map_of_mem _ (List.mem_range.mpr hv), rfl, rfl⟩

/-- The prime implicant list of the constant-true tree is exactly the
blanket cube. -/
theorem const_true_primes :
    Minimizer_FindPrimeImplicants (Minimizer_GenerateTruthTable const_true_root) =
      [⟨0, 63, false, false⟩] := by
  have htt : Minimizer_GenerateTruthTable const_true_root = List.range 64 := by
    decide
  rw [htt, Minimizer_FindPrimeImplicants]
  exact qm_loop_gen 6 65 0 ((List.range 64).map (fun m => ⟨m, 0, false, false⟩))
    (by omega) (by omega) GenInv_init

theorem findPrime_inv {tt : List Nat} (h : ∀ x ∈ tt, x < 64) :
    ∀ t ∈ Minimizer_FindPrimeImplicants tt, InvImp t := by
  apply qm_loop_inv
  · exact init_inv h
  · intro t ht
    cases ht

/-- The prime implicants cover exactly the input minterms. -/
theorem findPrime_coverage {tt : List Nat} (h : ∀ x ∈ tt, x < 64) {m : Nat}
    (hm : m < 64) :
    (∃ t ∈ Minimizer_FindPrimeImplicants tt, covers t m = true) ↔ m ∈ tt := by
  rw [Minimizer_FindPrimeImplicants,
    qm_loop_coverage 65 0 _ [] (init_inv h)
      (by
        intro t ht
        rcases List.mem_map.mp ht with ⟨v, hv, rfl⟩
        show popcount6 0 = 0
        decide)
      (by omega) m]
  constructor
  · rintro (⟨t, ht, htc⟩ | ⟨t, ht, -⟩)
    · rcases List.mem_map.mp ht with ⟨v, hv, rfl⟩
      rw [covers_init (h v hv) hm] at htc
      exact htc ▸ hv
    · cases ht
  · intro hmem
    exact Or.inl ⟨⟨m, 0, false, false⟩, List.mem_map.mpr ⟨m, hmem, rfl⟩,
      (covers_init (h m hmem) hm).mpr rfl⟩

/-! ## Lemma layer: parsing the printed SOP strings -/

theorem letter_facts {bit : Nat} (hbit : bit < 6) :
    c_isspace (Char.ofNat (65 + bit)) = false ∧
    c_isalnum (Char.ofNat (65 + bit)) = true ∧
    c_toupper (Char.ofNat (65 + bit)) = Char.ofNat (65 + bit) ∧
    (Char.ofNat (65 + bit)).toNat = 65 + bit ∧
    Char.ofNat (65 + bit) ≠ Char.ofNat 39 ∧
    Char.ofNat (65 + bit) ≠ '(' ∧
    Char.ofNat (65 + bit) ≠ ')' := by
  have h : ∀ b : Fin 6,
      c_isspace (Char.ofNat (65 + b.val)) = false ∧
      c_isalnum (Char.ofNat (65 + b.val)) = true ∧
      c_toupper (Char.ofNat (65 + b.val)) = Char.ofNat (65 + b.val) ∧
      (Char.ofNat (65 + b.val)).toNat = 65 + b.val ∧
      Char.ofNat (65 + b.val) ≠ Char.ofNat 39 ∧
      Char.ofNat (65 + b.val) ≠ '(' ∧
      Char.ofNat (65 + b.val) ≠ ')' := by decide
  exact h ⟨bit, hbit⟩

theorem shiftand_decide (x i : Nat) :
    decide ((x >>> i) &&& 1 = 1) = x.testBit i := by
  rw [Nat.and_one_is_mod, Nat.shiftRight_eq_div_pow, Nat.testBit_to_div_mod]

theorem eval_var_letter {bit : Nat} (hbit : bit < 6) (m : Nat) :
    AST_Evaluate (AST_CreateVar (Char.ofNat (65 + bit))) m = m.testBit bit := by
  have hc := (letter_facts hbit).2.2.2.1
  show AST_Evaluate (LogicNode.mk NodeType.NODE_VAR (Char.ofNat (65 + bit))
    LogicNode.null LogicNode.null) m = m.testBit bit
  rw [AST_Evaluate]
  rw [if_pos rfl, hc]
  show (if ((65 + bit : Nat) : Int) - 65 < 0 || ((65 + bit : Nat) : Int) - 65 > 31
    then false
    else decide ((m >>> (((65 + bit : Nat) : Int) - 65).toNat) &&& 1 = 1)) = m.testBit bit
  have he : ((65 + bit : Nat) : Int) - 65 = (bit : Int) := by omega
  rw [he]
  rw [if_neg (by simp; omega)]
  rw [show ((bit : Int)).toNat = bit from by omega, shiftand_decide]

theorem eval_not_wrap (n : LogicNode) (m : Nat) :
    AST_Evaluate (LogicNode.mk NodeType.NODE_NOT (Char.ofNat 0) n LogicNode.null) m =
      !(AST_Evaluate n m) := by
  rw [AST_Evaluate]
  rfl

theorem eval_and_node (x y : LogicNode) (m : Nat) :
    AST_Evaluate (LogicNode.mk NodeType.NODE_AND (Char.ofNat 0) x y) m =
      (AST_Evaluate x m && AST_Evaluate y m) := by
  rw [AST_Evaluate]
  rfl

theorem eval_or_node (x y : LogicNode) (m : Nat) :
    AST_Evaluate (LogicNode.mk NodeType.NODE_OR (Char.ofNat 0) x y) m =
      (AST_Evaluate x m || AST_Evaluate y m) := by
  rw [AST_Evaluate]
  rfl

theorem parse_loop_append (st : PState) (l1 l2 : List Char) :
    parse_loop st (l1 ++ l2) = parse_loop (parse_loop st l1) l2 := by
  induction l1 generalizing st with
  | nil => rfl
  | cons c cs ih => exact ih (process_char st c)

theorem reduce_star_nil (ns : List LogicNode) : reduce_star ns [] = (ns, []) := rfl

theorem reduce_star_plus (ns : List LogicNode) (rest : List Char) :
    reduce_star ns ('+' :: rest) = (ns, '+' :: rest) := by
  rw [reduce_star]
  rw [if_neg (by decide)]

theorem reduce_star_star (ns : List LogicNode) (rest : List Char) :
    reduce_star ns ('*' :: rest) = reduce_star (apply_op '*' ns) rest := by
  rw [reduce_star]
  rw [if_pos (by decide)]

theorem apply_op_star (x y : LogicNode) (ns : List LogicNode)
    (h : ns.length < MAX_STACK) :
    apply_op '*' (x :: y :: ns) =
      LogicNode.mk NodeType.NODE_AND (Char.ofNat 0) y x :: ns := by
  rw [apply_op]
  rw [if_neg (by decide)]
  show node_push ns _ = _
  rw [node_push, if_pos h]
  rfl

theorem apply_op_plus (x y : LogicNode) (ns : List LogicNode)
    (h : ns.length < MAX_STACK) :
    apply_op '+' (x :: y :: ns) =
      LogicNode.mk NodeType.NODE_OR (Char.ofNat 0) y x :: ns := by
  rw [apply_op]
  rw [if_neg (by decide)]
  show node_push ns _ = _
  rw [node_push, if_pos h]
  rfl

theorem reduce_binary_nil (c : Char) (ns : List LogicNode) :
    reduce_binary c ns [] = (ns, []) := rfl

theorem reduce_binary_plus_plus (ns : List LogicNode) (rest : List Char) :
    reduce_binary '+' ns ('+' :: rest) = reduce_binary '+' (apply_op '+' ns) rest := by
  rw [reduce_binary]
  rw [if_pos (by decide), if_neg (by decide)]

theorem reduce_binary_plus_star (ns : List LogicNode) (rest : List Char) :
    reduce_binary '+' ns ('*' :: rest) = reduce_binary '+' (apply_op '*' ns) rest := by
  rw [reduce_binary]
  rw [if_pos (by decide), if_neg (by decide)]

theorem node_push_small (ns : List LogicNode) (n : LogicNode)
    (h : ns.length < MAX_STACK) : node_push ns n = n :: ns := by
  rw [node_push, if_pos h]

theorem op_push_small (ops : List Char) (c : Char) (h : ops.length < MAX_STACK) :
    op_push ops c = c :: ops := by
  rw [op_push, if_pos h]

theorem process_space (st : PState) : process_char st ' ' = st := by
  rw [process_char]
  rw [if_pos (by decide)]

theorem process_letter_fresh (c : Char) (hsp : c_isspace c = false)
    (hal : c_isalnum c = true) (hub : c_toupper c = c)
    (ns : List LogicNode) (ops : List Char) (last : TokenType)
    (hlast : last = TokenType.START ∨ last = TokenType.OP)
    (hlen : ns.length < MAX_STACK) :
    process_char ⟨ns, ops, last⟩ c = ⟨AST_CreateVar c :: ns, ops, TokenType.VAR⟩ := by
  rcases hlast with rfl | rfl <;>
    simp [process_char, hsp, hal, hub, node_push, hlen]

theorem process_letter_after_var (c : Char) (hsp : c_isspace c = false)
    (hal : c_isalnum c = true) (hub : c_toupper c = c)
    (ns : List LogicNode) (ops : List Char) (ns' : List LogicNode) (ops' : List Char)
    (hred : reduce_star ns ops = (ns', ops'))
    (h1 : ns'.length < MAX_STACK) (h2 : ops'.length < MAX_STACK) :
    process_char ⟨ns, ops, TokenType.VAR⟩ c =
      ⟨AST_CreateVar c :: ns', '*' :: ops', TokenType.VAR⟩ := by
  simp [process_char, hsp, hal, hub, hred, node_push, op_push, h1, h2]

theorem process_apos (n : LogicNode) (ns : List LogicNode) (ops : List Char)
    (last : TokenType) (hlen : ns.length < MAX_STACK) :
    process_char ⟨n :: ns, ops, last⟩ (Char.ofNat 39) =
      ⟨LogicNode.mk NodeType.NODE_NOT (Char.ofNat 0) n LogicNode.null :: ns, ops,
        TokenType.VAR⟩ := by
  simp [process_char, c_isspace, c_isalnum, node_pop, node_push, hlen]

theorem process_plus (ns : List LogicNode) (ops : List Char) (last : TokenType)
    (ns' : List LogicNode) (ops' : List Char)
    (hred : reduce_binary '+' ns ops = (ns', ops'))
    (hlen : ops'.length < MAX_STACK) :
    process_char ⟨ns, ops, last⟩ '+' = ⟨ns', '+' :: ops', TokenType.OP⟩ := by
  simp [process_char, c_isspace, c_isalnum, hred, op_push, hlen]

theorem shapeInv_congr {st₀ : PState} {sem sem' : Nat → Bool} {st : PState}
    (h : ∀ m, sem m = sem' m) (hst : ShapeInv st₀ sem st) : ShapeInv st₀ sem' st := by
  rcases hst with ⟨h1, h2⟩ | ⟨T, h1, h2⟩ | ⟨T, P, h1, h2⟩
  · exact Or.inl ⟨fun m => by rw [← h m]; exact h1 m, h2⟩
  · exact Or.inr (Or.inl ⟨T, h1, fun m => by rw [← h m]; exact h2 m⟩)
  · exact Or.inr (Or.inr ⟨T, P, h1, fun m => by rw [← h m]; exact h2 m⟩)

theorem accState_congr {sem sem' : Nat → Bool} {st : PState}
    (h : ∀ m, sem m = sem' m) (hst : AccState sem st) : AccState sem' st := by
  rcases hst with ⟨T, h1, h2⟩ | ⟨T, P, h1, h2⟩ | ⟨T, a, h1, h2⟩ | ⟨T, P, a, h1, h2⟩
  · exact Or.inl ⟨T, h1, fun m => by rw [← h m]; exact h2 m⟩
  · exact Or.inr (Or.inl ⟨T, P, h1, fun m => by rw [← h m]; exact h2 m⟩)
  · exact Or.inr (Or.inr (Or.inl ⟨T, a, h1, fun m => by rw [← h m]; exact h2 m⟩))
  · exact Or.inr (Or.inr (Or.inr ⟨T, P, a, h1, fun m => by rw [← h m]; exact h2 m⟩))

/-- Processing the characters of one literal extends the pending term by
one conjunct. -/
theorem lit_proc (ns₀ : List LogicNode) (ops₀ : List Char) (last₀ : TokenType)
    (hns : ns₀.length ≤ 1) (hops : ops₀ = [] ∨ ops₀ = ['+'])
    (hlast : last₀ = TokenType.START ∨ last₀ = TokenType.OP)
    (t : Implicant) (bit : Nat) (hbit : bit < 6)
    (hmask : t.mask.testBit bit = false)
    (sem : Nat → Bool) (st : PState)
    (hst : ShapeInv ⟨ns₀, ops₀, last₀⟩ sem st) :
    ShapeInv ⟨ns₀, ops₀, last₀⟩
      (fun m => sem m && (m.testBit bit == t.value.testBit bit))
      (parse_loop st (lit_chars t bit)) := by
  obtain ⟨hsp, hal, hub, -, -, -, -⟩ := letter_facts hbit
  have hmask' : ¬((t.mask >>> bit) &&& 1 = 1) := by
    intro hc
    have hd : decide ((t.mask >>> bit) &&& 1 = 1) = true := decide_eq_true hc
    rw [shiftand_decide, hmask] at hd
    cases hd
  simp only [ShapeInv] at hst
  -- processing the letter pushes a fresh variable on top of the (possibly
  -- reduced) pending context
  have hstep :
      (process_char st (Char.ofNat (65 + bit)) =
          ⟨AST_CreateVar (Char.ofNat (65 + bit)) :: ns₀, ops₀, TokenType.VAR⟩ ∧
        ∀ m, sem m = true) ∨
      (∃ P, process_char st (Char.ofNat (65 + bit)) =
          ⟨AST_CreateVar (Char.ofNat (65 + bit)) :: P :: ns₀, '*' :: ops₀,
            TokenType.VAR⟩ ∧
        ∀ m, AST_Evaluate P m = sem m) := by
    rcases hst with ⟨h1, rfl⟩ | ⟨T, rfl, h2⟩ | ⟨T, P, rfl, h2⟩
    · exact Or.inl ⟨process_letter_fresh _ hsp hal hub ns₀ ops₀ last₀ hlast
        (by simp only [MAX_STACK]; omega), h1⟩
    · refine Or.inr ⟨T, ?_, h2⟩
      have hred : reduce_star (T :: ns₀) ops₀ = (T :: ns₀, ops₀) := by
        rcases hops with rfl | rfl
        · exact reduce_star_nil _
        · exact reduce_star_plus _ _
      exact process_letter_after_var _ hsp hal hub _ _ _ _ hred
        (by simp only [MAX_STACK, List.length_cons]; omega)
        (by rcases hops with rfl | rfl <;> decide)
    · refine Or.inr ⟨LogicNode.mk NodeType.NODE_AND (Char.ofNat 0) P T, ?_, ?_⟩
      · have hred : reduce_star (T :: P :: ns₀) ('*' :: ops₀) =
            (LogicNode.mk NodeType.NODE_AND (Char.ofNat 0) P T :: ns₀, ops₀) := by
          rw [reduce_star_star, apply_op_star _ _ _ (by simp only [MAX_STACK]; omega)]
          rcases hops with rfl | rfl
          · exact reduce_star_nil _
          · exact reduce_star_plus _ _
        exact process_letter_after_var _ hsp hal hub _ _ _ _ hred
          (by simp only [MAX_STACK, List.length_cons]; omega)
          (by rcases hops with rfl | rfl <;> decide)
      · intro m
        rw [eval_and_node, h2 m]
  by_cases hval : t.value.testBit bit = true
  · have hlc : lit_chars t bit = [Char.ofNat (65 + bit)] := by
      rw [lit_chars, if_neg hmask',
        if_pos (of_decide_eq_true (by rw [shiftand_decide, hval]))]
    rw [hlc]
    show ShapeInv _ _ (process_char st (Char.ofNat (65 + bit)))
    rcases hstep with ⟨heq, h1⟩ | ⟨P, heq, h2⟩
    · rw [heq]
      refine Or.inr (Or.inl ⟨AST_CreateVar (Char.ofNat (65 + bit)), rfl, fun m => ?_⟩)
      simp only []
      rw [eval_var_letter hbit, h1 m, hval]
      cases htb : m.testBit bit <;> rfl
    · rw [heq]
      refine Or.inr (Or.inr ⟨AST_CreateVar (Char.ofNat (65 + bit)), P, rfl,
        fun m => ?_⟩)
      simp only []
      rw [eval_var_letter hbit, h2 m, hval]
      cases hsm : sem m <;> cases htb : m.testBit bit <;> rfl
  · have hval' : t.value.testBit bit = false := by
      cases h : t.value.testBit bit
      · rfl
      · exact absurd h hval
    have hvne : ¬((t.value >>> bit) &&& 1 = 1) := by
      intro hc
      have hd : decide ((t.value >>> bit) &&& 1 = 1) = true := decide_eq_true hc
      rw [shiftand_decide, hval'] at hd
      cases hd
    have hlc : lit_chars t bit = [Char.ofNat (65 + bit), Char.ofNat 39] := by
      rw [lit_chars, if_neg hmask', if_neg hvne]
    rw [hlc]
    show ShapeInv _ _
      (process_char (process_char st (Char.ofNat (65 + bit))) (Char.ofNat 39))
    rcases hstep with ⟨heq, h1⟩ | ⟨P, heq, h2⟩
    · rw [heq, process_apos _ _ _ _ (by simp only [MAX_STACK]; omega)]
      refine Or.inr (Or.inl ⟨_, rfl, fun m => ?_⟩)
      simp only []
      rw [eval_not_wrap, eval_var_letter hbit, h1 m, hval']
      cases htb : m.testBit bit <;> rfl
    · rw [heq, process_apos _ _ _ _
        (by simp only [MAX_STACK, List.length_cons]; omega)]
      refine Or.inr (Or.inr ⟨_, P, rfl, fun m => ?_⟩)
      simp only []
      rw [eval_not_wrap, eval_var_letter hbit, h2 m, hval']
      cases hsm : sem m <;> cases htb : m.testBit bit <;> rfl

/-- Processing all literals of a term over a list of bit positions. -/
theorem seg_proc (ns₀ : List LogicNode) (ops₀ : List Char) (last₀ : TokenType)
    (hns : ns₀.length ≤ 1) (hops : ops₀ = [] ∨ ops₀ = ['+'])
    (hlast : last₀ = TokenType.START ∨ last₀ = TokenType.OP)
    (t : Implicant) (bits : List Nat) (hbits : ∀ b ∈ bits, b < 6)
    (sem : Nat → Bool) (st : PState)
    (hst : ShapeInv ⟨ns₀, ops₀, last₀⟩ sem st) :
    ShapeInv ⟨ns₀, ops₀, last₀⟩ (fun m => sem m && seg_sem t bits m)
      (parse_loop st (seg_concat t bits)) := by
  induction bits generalizing sem st with
  | nil =>
    refine shapeInv_congr (fun m => ?_) hst
    simp [seg_sem]
  | cons b bs ih =>
    have hb : b < 6 := hbits b (List.mem_cons_self b bs)
    show ShapeInv _ _ (parse_loop st (lit_chars t b ++ seg_concat t bs))
    rw [parse_loop_append]
    by_cases hmask : t.mask.testBit b = true
    · have hlc : lit_chars t b = [] := by
        rw [lit_chars, if_pos (of_decide_eq_true (by rw [shiftand_decide, hmask]))]
      rw [hlc]
      refine shapeInv_congr (fun m => ?_)
        (ih (fun x hx => hbits x (List.mem_cons_of_mem b hx)) sem
          (parse_loop st []) hst)
      simp [seg_sem, hmask]
    · have hmask' : t.mask.testBit b = false := by
        cases h : t.mask.testBit b
        · rfl
        · exact absurd h hmask
      have h1 := lit_proc ns₀ ops₀ last₀ hns hops hlast t b hb hmask' sem st hst
      have h2 := ih (fun x hx => hbits x (List.mem_cons_of_mem b hx)) _ _ h1
      refine shapeInv_congr (fun m => ?_) h2
      simp [seg_sem, hmask', Bool.and_assoc]

/-- The foldl which `Minimizer_PrintSOP` runs over the bit positions of one
term appends exactly the literal characters of those positions. -/
theorem sop_term_foldl (t : Implicant) (bits : List Nat) (init : List Char) :
    bits.foldl
      (fun acc bit =>
        if (t.mask >>> bit) &&& 1 = 1 then acc
        else if (t.value >>> bit) &&& 1 = 1 then acc ++ [Char.ofNat (65 + bit)]
        else acc ++ [Char.ofNat (65 + bit), Char.ofNat 39])
      init = init ++ seg_concat t bits := by
  induction bits generalizing init with
  | nil => simp [seg_concat]
  | cons b bs ih =>
    rw [List.foldl_cons, ih]
    show (if (t.mask >>> b) &&& 1 = 1 then init
        else if (t.value >>> b) &&& 1 = 1 then init ++ [Char.ofNat (65 + b)]
        else init ++ [Char.ofNat (65 + b), Char.ofNat 39]) ++ seg_concat t bs =
      init ++ seg_concat t (b :: bs)
    rw [show seg_concat t (b :: bs) = lit_chars t b ++ seg_concat t bs from rfl,
      lit_chars]
    by_cases h1 : (t.mask >>> b) &&& 1 = 1
    · rw [if_pos h1, if_pos h1, List.nil_append]
    · rw [if_neg h1, if_neg h1]
      by_cases h2 : (t.value >>> b) &&& 1 = 1
      · rw [if_pos h2, if_pos h2, List.append_assoc]
      · rw [if_neg h2, if_neg h2, List.append_assoc]

theorem sop_term_chars_eq (t : Implicant) :
    sop_term_chars t = seg_concat t (List.range MAX_VARS) := by
  rw [sop_term_chars, sop_term_foldl]
  rfl

theorem covers_seg_sem (t : Implicant) (m : Nat) :
    covers t m = seg_sem t (List.range MAX_VARS) m := rfl

/-- A term with an unmasked bit does not cover the input obtained by
flipping that bit of its value. -/
theorem seg_sem_flip (t : Implicant) (b : Nat) (hb : b < 6)
    (hub : t.mask.testBit b = false) :
    seg_sem t (List.range MAX_VARS) (t.value ^^^ 2 ^ b) = false := by
  have hm0 : (t.value ^^^ 2 ^ b).testBit b = !(t.value.testBit b) := by
    rw [Nat.testBit_xor, Nat.testBit_two_pow_self]
    cases hvb : t.value.testBit b <;> rfl
  rw [seg_sem]
  cases hall : (List.range MAX_VARS).all
      (fun bit => t.mask.testBit bit ||
        ((t.value ^^^ 2 ^ b).testBit bit == t.value.testBit bit))
  · rfl
  · exfalso
    have hc := List.all_eq_true.mp hall b (List.mem_range.mpr hb)
    simp only [] at hc
    rw [hub, hm0] at hc
    cases hvb : t.value.testBit b <;> rw [hvb] at hc <;> exact absurd hc (by decide)

/-- Reading one complete SOP term from the start state. -/
theorem term_acc_start (t : Implicant) (b : Nat) (hb : b < 6)
    (hub : t.mask.testBit b = false) :
    ∃ st, parse_loop ⟨[], [], TokenType.START⟩ (sop_term_chars t) = st ∧
      AccState (fun m => covers t m) st := by
  have h := seg_proc [] [] TokenType.START (by decide) (Or.inl rfl) (Or.inl rfl) t
    (List.range MAX_VARS) (fun x hx => List.mem_range.mp hx) (fun _ => true)
    ⟨[], [], TokenType.START⟩ (Or.inl ⟨fun _ => rfl, rfl⟩)
  rw [← sop_term_chars_eq] at h
  refine ⟨_, rfl, ?_⟩
  rcases h with ⟨h1, heq⟩ | ⟨T, heq, h2⟩ | ⟨T, P, heq, h2⟩
  · exfalso
    have hx := h1 (t.value ^^^ 2 ^ b)
    simp only [] at hx
    rw [Bool.true_and, seg_sem_flip t b hb hub] at hx
    exact absurd hx (by decide)
  · rw [heq]
    refine Or.inl ⟨T, rfl, fun m => ?_⟩
    rw [h2 m]
    simp [covers_seg_sem]
  · rw [heq]
    refine Or.inr (Or.inl ⟨T, P, rfl, fun m => ?_⟩)
    rw [h2 m]
    simp [covers_seg_sem]

/-- Reading one complete SOP term right after a `" + "` separator. -/
theorem term_acc_plus (t : Implicant) (b : Nat) (hb : b < 6)
    (hub : t.mask.testBit b = false) (acc : LogicNode) (sem : Nat → Bool)
    (hacc : ∀ m, AST_Evaluate acc m = sem m) :
    ∃ st, parse_loop ⟨[acc], ['+'], TokenType.OP⟩ (sop_term_chars t) = st ∧
      AccState (fun m => sem m || covers t m) st := by
  have h := seg_proc [acc] ['+'] TokenType.OP (by simp) (Or.inr rfl) (Or.inr rfl) t
    (List.range MAX_VARS) (fun x hx => List.mem_range.mp hx) (fun _ => true)
    ⟨[acc], ['+'], TokenType.OP⟩ (Or.inl ⟨fun _ => rfl, rfl⟩)
  rw [← sop_term_chars_eq] at h
  refine ⟨_, rfl, ?_⟩
  rcases h with ⟨h1, heq⟩ | ⟨T, heq, h2⟩ | ⟨T, P, heq, h2⟩
  · exfalso
    have hx := h1 (t.value ^^^ 2 ^ b)
    simp only [] at hx
    rw [Bool.true_and, seg_sem_flip t b hb hub] at hx
    exact absurd hx (by decide)
  · rw [heq]
    refine Or.inr (Or.inr (Or.inl ⟨T, acc, rfl, fun m => ?_⟩))
    rw [hacc m, h2 m]
    simp [covers_seg_sem]
  · rw [heq]
    refine Or.inr (Or.inr (Or.inr ⟨T, P, acc, rfl, fun m => ?_⟩))
    rw [hacc m, h2 m]
    simp [covers_seg_sem]

/-- Reading the `" + "` separator from a complete-term state flushes the
pending operations into a single accumulated node. -/
theorem acc_sep (sem : Nat → Bool) (st : PState) (hst : AccState sem st) :
    ∃ acc, parse_loop st ((" + ").data) = ⟨[acc], ['+'], TokenType.OP⟩ ∧
      ∀ m, AST_Evaluate acc m = sem m := by
  rcases hst with ⟨T, rfl, h⟩ | ⟨T, P, rfl, h⟩ | ⟨T, a, rfl, h⟩ | ⟨T, P, a, rfl, h⟩
  · exact ⟨T, rfl, h⟩
  · exact ⟨LogicNode.mk NodeType.NODE_AND (Char.ofNat 0) P T, rfl,
      fun m => by rw [eval_and_node]; exact h m⟩
  · exact ⟨LogicNode.mk NodeType.NODE_OR (Char.ofNat 0) a T, rfl,
      fun m => by rw [eval_or_node]; exact h m⟩
  · exact ⟨LogicNode.mk NodeType.NODE_OR (Char.ofNat 0) a
      (LogicNode.mk NodeType.NODE_AND (Char.ofNat 0) P T), rfl,
      fun m => by rw [eval_or_node, eval_and_node]; exact h m⟩

/-- The end-of-input reduction of a complete-term state yields a single
root computing the accumulated semantics. -/
theorem acc_final (sem : Nat → Bool) (st : PState) (hst : AccState sem st) :
    ∃ root, reduce_all st.nodes st.ops = [root] ∧
      ∀ m, AST_Evaluate root m = sem m := by
  rcases hst with ⟨T, rfl, h⟩ | ⟨T, P, rfl, h⟩ | ⟨T, a, rfl, h⟩ | ⟨T, P, a, rfl, h⟩
  · exact ⟨T, rfl, h⟩
  · exact ⟨LogicNode.mk NodeType.NODE_AND (Char.ofNat 0) P T, rfl,
      fun m => by rw [eval_and_node]; exact h m⟩
  · exact ⟨LogicNode.mk NodeType.NODE_OR (Char.ofNat 0) a T, rfl,
      fun m => by rw [eval_or_node]; exact h m⟩
  · exact ⟨LogicNode.mk NodeType.NODE_OR (Char.ofNat 0) a
      (LogicNode.mk NodeType.NODE_AND (Char.ofNat 0) P T), rfl,
      fun m => by rw [eval_or_node, eval_and_node]; exact h m⟩

/-- Processing the `" + "`-separated tail terms accumulates their
disjunction. -/
theorem sop_tail_proc (L : List Implicant) :
    ∀ (sem : Nat → Bool) (st : PState),
    (∀ t ∈ L, ∃ b, b < 6 ∧ t.mask.testBit b = false) →
    AccState sem st →
    ∃ st2, parse_loop st (sop_tail_chars L) = st2 ∧
      AccState (fun m => sem m || coverOf L m) st2 := by
  induction L with
  | nil =>
    intro sem st _ hst
    refine ⟨st, rfl, accState_congr (fun m => ?_) hst⟩
    simp [coverOf]
  | cons t rest ih =>
    intro sem st hL hst
    obtain ⟨b, hb, hub⟩ := hL t (List.mem_cons_self t rest)
    obtain ⟨acc, hsep, hacc⟩ := acc_sep sem st hst
    obtain ⟨st1, hterm, hacc1⟩ := term_acc_plus t b hb hub acc sem hacc
    obtain ⟨st2, htail, hacc2⟩ :=
      ih _ st1 (fun x hx => hL x (List.mem_cons_of_mem t hx)) hacc1
    refine ⟨st2, ?_, accState_congr (fun m => ?_) hacc2⟩
    · show parse_loop st (((" + ").data ++ sop_term_chars t) ++
        sop_tail_chars rest) = st2
      rw [parse_loop_append, parse_loop_append, hsep, hterm, htail]
    · simp [coverOf, Bool.or_assoc]

/-- The foldl of `Minimizer_PrintSOP` over the enumerated tail of the list
(positive indices) produces the separator-prefixed term strings. -/
theorem sop_enumFrom (k : Nat) (hk : 0 < k) (l : List Implicant) (acc : List Char) :
    (List.enumFrom k l).foldl
      (fun acc p =>
        (if 0 < p.1 then acc ++ (" + ").data else acc) ++ sop_term_chars p.2)
      acc = acc ++ sop_tail_chars l := by
  induction l generalizing k acc with
  | nil => simp [sop_tail_chars]
  | cons t ts ih =>
    rw [show List.enumFrom k (t :: ts) = (k, t) :: List.enumFrom (k + 1) ts from rfl,
      List.foldl_cons, ih (k + 1) (by omega)]
    simp [sop_tail_chars, hk]

theorem print_chars_eq (t1 : Implicant) (rest : List Implicant) :
    ((t1 :: rest).enum.foldl
      (fun acc p =>
        (if 0 < p.1 then acc ++ (" + ").data else acc) ++ sop_term_chars p.2)
      []) = sop_term_chars t1 ++ sop_tail_chars rest := by
  rw [show (t1 :: rest).enum = (0, t1) :: List.enumFrom 1 rest from rfl,
    List.foldl_cons, sop_enumFrom 1 (by omega)]
  simp

/-- `Minimizer_PrintSOP` on a nonempty list whose head is not the full-mask
cube prints the terms joined by `" + "`. -/
theorem printSOP_cons (t1 : Implicant) (rest : List Implicant) (hm : t1.mask ≠ 63) :
    Minimizer_PrintSOP (t1 :: rest) =
      String.mk (sop_term_chars t1 ++ sop_tail_chars rest) := by
  rw [Minimizer_PrintSOP, if_neg (by simp), if_neg (by simpa using hm),
    print_chars_eq]

/-- Parsing the printed SOP string of a nonempty implicant list whose head
is not the constant-true cube recovers exactly its coverage function. -/
theorem sop_parse_eval (t1 : Implicant) (rest : List Implicant)
    (hm : t1.mask ≠ 63)
    (hL : ∀ t ∈ t1 :: rest, ∃ b, b < 6 ∧ t.mask.testBit b = false) (m : Nat) :
    AST_Evaluate (Parser_ParseString (Minimizer_PrintSOP (t1 :: rest))) m =
      coverOf (t1 :: rest) m := by
  obtain ⟨b, hb, hub⟩ := hL t1 (List.mem_cons_self t1 rest)
  obtain ⟨st1, hterm, hacc1⟩ := term_acc_start t1 b hb hub
  obtain ⟨st2, htail, hacc2⟩ := sop_tail_proc rest _ st1
    (fun x hx => hL x (List.mem_cons_of_mem t1 hx)) hacc1
  obtain ⟨root, hred, hroot⟩ := acc_final _ st2 hacc2
  have hloop : parse_loop ⟨[], [], TokenType.START⟩
      (sop_term_chars t1 ++ sop_tail_chars rest) = st2 := by
    rw [parse_loop_append, hterm, htail]
  have hparse : Parser_ParseString
      (String.mk (sop_term_chars t1 ++ sop_tail_chars rest)) = root := by
    show (match reduce_all (parse_loop ⟨[], [], TokenType.START⟩
        (sop_term_chars t1 ++ sop_tail_chars rest)).nodes
        (parse_loop ⟨[], [], TokenType.START⟩
        (sop_term_chars t1 ++ sop_tail_chars rest)).ops with
      | [r] => r
      | _ => LogicNode.null) = root
    rw [hloop, hred]
  rw [printSOP_cons t1 rest hm, hparse, hroot m]
  simp [coverOf]

/-- Membership in the generated truth table. -/
theorem tt_mem (root : LogicNode) (m : Nat) :
    m ∈ Minimizer_GenerateTruthTable root ↔
      m < 64 ∧ AST_Evaluate root m = true := by
  rw [Minimizer_GenerateTruthTable]
  by_cases h : root = LogicNode.null
  · rw [if_pos h, h]
    simp [AST_Evaluate]
  · rw [if_neg h]
    simp [List.mem_filter, List.mem_range]

theorem tt_bound (root : LogicNode) :
    ∀ x ∈ Minimizer_GenerateTruthTable root, x < 64 :=
  fun x hx => ((tt_mem root x).mp hx).1

/-- When the tree is not constant-true on the 64 input masks, no returned
prime implicant has the full mask: each printed term contains at least one
literal. -/
theorem no_full_mask (root : LogicNode)
    (hnc : ¬ ∀ m : Fin 64, AST_Evaluate root m.val = true)
    {t : Implicant}
    (ht : t ∈ Minimizer_FindPrimeImplicants (Minimizer_GenerateTruthTable root)) :
    ∃ b, b < 6 ∧ t.mask.testBit b = false := by
  by_contra hno
  push_neg at hno
  have hinv := findPrime_inv (tt_bound root) t ht
  have h63 : ∀ b : Fin 6, (63 : Nat).testBit b.val = true := by decide
  have hm63 : t.mask = 63 := by
    apply mask_eq_63_of_low_bits hinv.2.1
    intro b hb
    cases hmb : t.mask.testBit b
    · exact absurd hmb (hno b hb)
    · rfl
  apply hnc
  intro m
  have hcov : covers t m.val = true := by
    rw [covers_iff]
    intro bit hbit
    left
    rw [hm63]
    exact h63 ⟨bit, hbit⟩
  have hin := (findPrime_coverage (tt_bound root) m.isLt).mp ⟨t, ht, hcov⟩
  exact ((tt_mem root m.val).mp hin).2

/-- The constant-false string printed for an empty implicant list re-parses
to a tree that is false on every 6-bit mask: its head variable `0` has an
out-of-range index, making the whole conjunction false. -/
theorem parse_false_string :
    ∀ m : Fin 64, AST_Evaluate (Parser_ParseString ("0 (False)")) m.val = false := by
  decide

/-! ## Claim theorems: parser-level claims -/

/-- C2 counter-evidence: the parser does **not** treat `%` as NAND or `$`
as NOR.  `get_precedence` gives both the default precedence 0 (not 3
resp. 2) and `char_to_type` maps both to `NODE_AND`, so `"A%B"` and
`"A$B"` both parse to `And(A,B)`; at mask 3 the parsed `"A%B"` evaluates
true where `Nand(A,B)` is false, and at mask 0 the parsed `"A$B"`
evaluates false where `Nor(A,B)` is true. -/
theorem claim_C2_divergence :
    Parser_ParseString ("A%B") =
      LogicNode.mk NodeType.NODE_AND (Char.ofNat 0) (AST_CreateVar 'A') (AST_CreateVar 'B') ∧
    Parser_ParseString ("A$B") =
      LogicNode.mk NodeType.NODE_AND (Char.ofNat 0) (AST_CreateVar 'A') (AST_CreateVar 'B') ∧
    get_precedence '%' = 0 ∧
    get_precedence '$' = 0 ∧
    AST_Evaluate (Parser_ParseString ("A%B")) 3 = true ∧
    AST_Evaluate (LogicNode.mk NodeType.NODE_NAND (Char.ofNat 0)
      (AST_CreateVar 'A') (AST_CreateVar 'B')) 3 = false ∧
    AST_Evaluate (Parser_ParseString ("A$B")) 0 = false ∧
    AST_Evaluate (LogicNode.mk NodeType.NODE_NOR (Char.ofNat 0)
      (AST_CreateVar 'A') (AST_CreateVar 'B')) 0 = true := by
  decide

/-- C3 counter-evidence: on the dangling-operator input `"A+"` and the
unbalanced input `"(A"` the parser does **not** return NULL — it returns
a corrupt tree whose left child is NULL (for `"(A"` the discarded `(` is
even turned into an AND node by the `char_to_type` default).  Only the
empty input correctly fails with NULL. -/
theorem claim_C3_divergence :
    Parser_ParseString ("A+") =
      LogicNode.mk NodeType.NODE_OR (Char.ofNat 0) LogicNode.null (AST_CreateVar 'A') ∧
    Parser_ParseString ("(A") =
      LogicNode.mk NodeType.NODE_AND (Char.ofNat 0) LogicNode.null (AST_CreateVar 'A') ∧
    Parser_ParseString ("") = LogicNode.null := by
  decide

/-- C7: implicit multiplication — `"AB"` evaluates like `"A*B"` and
`"A(B+C)"` like `"A*(B+C)"` on every 6-bit mask. -/
theorem claim_C7_implicit_mult :
    ∀ m : Fin 64,
      AST_Evaluate (Parser_ParseString ("AB")) m =
        AST_Evaluate (Parser_ParseString ("A*B")) m ∧
      AST_Evaluate (Parser_ParseString ("A(B+C)")) m =
        AST_Evaluate (Parser_ParseString ("A*(B+C)")) m := by
  decide

/-- C9: the parser accepts any alphanumeric character as a variable:
`"0"` parses successfully to a variable node named `'0'`, and that node
evaluates to false on every 6-bit mask (`'0' - 'A'` is negative). -/
theorem claim_C9_digit_var :
    Parser_ParseString ("0") = AST_CreateVar '0' ∧
    ∀ m : Fin 64, AST_Evaluate (Parser_ParseString ("0")) m = false := by
  decide

/-- C10: NULL-tree asymmetry.  `AST_Evaluate` of NULL is false for every
mask, yet `Minimizer_GetMaxterms` of NULL is the empty table (not all 64
masks) and `Minimizer_GenerateTruthTable` of NULL is likewise empty; so
`maxterms(f) = minterms(¬f)` — with `¬f` formed by wrapping the root in a
NOT node — fails at the NULL tree and only there. -/
theorem claim_C10_null_asymmetry :
    (∀ m : Nat, AST_Evaluate LogicNode.null m = false) ∧
    Minimizer_GetMaxterms LogicNode.null = [] ∧
    Minimizer_GenerateTruthTable LogicNode.null = [] ∧
    Minimizer_GetMaxterms LogicNode.null ≠
      Minimizer_GenerateTruthTable
        (LogicNode.mk NodeType.NODE_NOT (Char.ofNat 0) LogicNode.null LogicNode.null) ∧
    (∀ root : LogicNode, root ≠ LogicNode.null →
      Minimizer_GetMaxterms root =
        Minimizer_GenerateTruthTable
          (LogicNode.mk NodeType.NODE_NOT (Char.ofNat 0) root LogicNode.null)) := by
  refine ⟨fun m => rfl, rfl, rfl, by decide, fun root h => ?_⟩
  have hnot : LogicNode.mk NodeType.NODE_NOT (Char.ofNat 0) root LogicNode.null ≠
      LogicNode.null := by
    intro hc
    cases hc
  rw [Minimizer_GetMaxterms, Minimizer_GenerateTruthTable, if_neg h, if_neg hnot]
  apply List.filter_congr
  intro i _
  show (!AST_Evaluate root i) = AST_Evaluate _ i
  rw [AST_Evaluate]
  rfl

/-- C10 witness: the final conjunct applied at the concrete non-NULL root
`Var A`. -/
theorem claim_C10_witness :
    Minimizer_GetMaxterms (AST_CreateVar 'A') =
      Minimizer_GenerateTruthTable
        (LogicNode.mk NodeType.NODE_NOT (Char.ofNat 0) (AST_CreateVar 'A') LogicNode.null) :=
  claim_C10_null_asymmetry.2.2.2.2 (AST_CreateVar 'A') (by decide)

/-! ## Claim theorems: netlist claims -/

/-- C5: associative flattening.  The netlist generated for `"A*B*C"`
contains exactly one AND gate node (with id 0) and exactly three edges
into it, one from each of the variable nodes A, B, C — not two nested AND
nodes.  In general, a child whose operator equals its associative parent's
operator contributes no node or id of its own: the traversal recurses
directly into its children under the parent's id; and a NOT child is
always visited as a separate node of its own. -/
theorem claim_C5_flattening :
    (Netlist_GenerateElems ("X") (Parser_ParseString ("A*B*C")) =
      [NetElem.node 0 ("AND") ("gate"),
       NetElem.node 1 ("A") ("var"), NetElem.edge 1 0,
       NetElem.node 2 ("B") ("var"), NetElem.edge 2 0,
       NetElem.node 3 ("C") ("var"), NetElem.edge 3 0,
       NetElem.node 4 ("X") ("output"), NetElem.edge 0 4]) ∧
    ((Netlist_GenerateElems ("X") (Parser_ParseString ("A*B*C"))).filter
      (fun e => match e with
        | NetElem.node _ label kind => label = "AND" && kind = "gate"
        | NetElem.edge _ _ => false)).length = 1 ∧
    ((Netlist_GenerateElems ("X") (Parser_ParseString ("A*B*C"))).filter
      (fun e => match e with
        | NetElem.node _ _ _ => false
        | NetElem.edge _ target => target = 0)).length = 3 ∧
    (∀ (pid : Int) (pt : NodeType) (v : Char) (l r : LogicNode) (idc : Nat),
      is_associative pt = true →
      visit (LogicNode.mk pt v l r) (some (pid, pt)) idc =
        ((visit l (some (pid, pt)) idc).1 ++
          (visit r (some (pid, pt)) (visit l (some (pid, pt)) idc).2.1).1,
         (visit r (some (pid, pt)) (visit l (some (pid, pt)) idc).2.1).2.1, -1)) ∧
    (∀ (pid : Int) (pt : NodeType) (v : Char) (l r : LogicNode) (idc : Nat),
      ((visit (LogicNode.mk NodeType.NODE_NOT v l r) (some (pid, pt)) idc).1.head? =
        some (NetElem.node (idc : Int) ("NOT") ("gate")))) := by
  refine ⟨by decide, by decide, by decide, ?_, ?_⟩
  · intro pid pt v l r idc hassoc
    rw [visit]
    rw [if_pos (by simp [flatten_here, hassoc])]
  · intro pid pt v l r idc
    rw [visit]
    rw [if_neg ?_]
    · rfl
    · simp only [flatten_here]
      cases hpt : pt <;> simp [is_associative]

/-- C5 witness: the flattening equation applied at concrete arguments —
an AND child below an AND parent with id 7 contributes only its flattened
children, and a NOT child below an AND parent is emitted as its own
node. -/
theorem claim_C5_witness :
    is_associative NodeType.NODE_AND = true ∧
    visit (LogicNode.mk NodeType.NODE_AND (Char.ofNat 0)
        (AST_CreateVar 'A') (AST_CreateVar 'B')) (some (7, NodeType.NODE_AND)) 9 =
      ((visit (AST_CreateVar 'A') (some (7, NodeType.NODE_AND)) 9).1 ++
        (visit (AST_CreateVar 'B') (some (7, NodeType.NODE_AND))
          (visit (AST_CreateVar 'A') (some (7, NodeType.NODE_AND)) 9).2.1).1,
       (visit (AST_CreateVar 'B') (some (7, NodeType.NODE_AND))
         (visit (AST_CreateVar 'A') (some (7, NodeType.NODE_AND)) 9).2.1).2.1, -1) := by
  constructor
  · decide
  · exact (claim_C5_flattening.2.2.2.1 7 NodeType.NODE_AND (Char.ofNat 0)
      (AST_CreateVar 'A') (AST_CreateVar 'B') 9 (by decide))

/-- C6 counter-evidence: `Netlist_GenerateJSON` silently truncates.  With
root `Var A` and capacity 60 the emitted string is a syntactically
complete JSON array that contains only the variable node — the output
node and the wiring edge were dropped without any failure signal (the
function returns only the buffer; it has no error output).  The complete
serialization (capacity 100000) differs.  With a NULL root and capacity 2
even the brackets are dropped and the result is the empty string. -/
theorem claim_C6_divergence :
    Netlist_GenerateJSON ("X") (AST_CreateVar 'A') 60 =
      "[\x7b \"data\": \x7b \"id\": \"n0\", \"label\": \"A\", \"type\": \"var\" \x7d \x7d]" ∧
    Netlist_GenerateJSON ("X") (AST_CreateVar 'A') 60 ≠
      Netlist_GenerateJSON ("X") (AST_CreateVar 'A') 100000 ∧
    Netlist_GenerateJSON ("X") LogicNode.null 100000 = "[]" ∧
    Netlist_GenerateJSON ("X") LogicNode.null 2 = "" := by
  refine ⟨by decide, ?_, by decide, by decide⟩
  have hlen : (Netlist_GenerateJSON ("X") (AST_CreateVar 'A') 60).length ≠
      (Netlist_GenerateJSON ("X") (AST_CreateVar 'A') 100000).length := by decide
  intro h
  exact hlen (by rw [h])

/-! ## Claim theorems: the semantic round trip (C1) -/

/-- C1 counterexample: the round trip fails at the constant-true tree
`A + A'`.  Its minterm table is all 64 masks, the prime-implicant list is
the single blanket implicant (`const_true_primes`), `Minimizer_PrintSOP`
renders the display string `"1 (True)"`, and re-parsing that string
yields the tree `1 * (T * R * U) * E` whose digit variable `'1'`
evaluates to false — so the re-evaluated result is false at mask 0 where
the original tree is true. -/
theorem claim_C1_counterexample :
    AST_Evaluate const_true_root 0 = true ∧
    Minimizer_PrintSOP (Minimizer_FindPrimeImplicants
      (Minimizer_GenerateTruthTable const_true_root)) = "1 (True)" ∧
    AST_Evaluate (Parser_ParseString (Minimizer_PrintSOP
      (Minimizer_FindPrimeImplicants
        (Minimizer_GenerateTruthTable const_true_root)))) 0 ≠
      AST_Evaluate const_true_root 0 := by
  have hsop : Minimizer_PrintSOP (Minimizer_FindPrimeImplicants
      (Minimizer_GenerateTruthTable const_true_root)) = "1 (True)" := by
    rw [const_true_primes]
    decide
  refine ⟨by decide, hsop, ?_⟩
  rw [hsop]
  decide

/-- C1 (amended): the semantic round trip holds for every AST that is not
constant-true on the 64 input masks: the SOP string printed from the prime
implicants of its truth table, when re-parsed and re-evaluated, agrees
with the original AST on all 64 masks.  This covers the constant-false
case (printed as `"0 (False)"`, whose re-parse is constant false); the
excluded constant-true case prints `"1 (True)"`, which re-parses to a
constant-false tree (see the counterexample theorem). -/
theorem claim_C1_roundtrip (root : LogicNode)
    (hnc : ¬ ∀ m : Fin 64, AST_Evaluate root m.val = true) (m : Fin 64) :
    AST_Evaluate (Parser_ParseString (Minimizer_PrintSOP
      (Minimizer_FindPrimeImplicants
        (Minimizer_GenerateTruthTable root)))) m.val =
      AST_Evaluate root m.val := by
  cases hP : Minimizer_FindPrimeImplicants (Minimizer_GenerateTruthTable root) with
  | nil =>
    have hmem := findPrime_coverage (tt_bound root) m.isLt
    rw [hP] at hmem
    have hnot : ¬ m.val ∈ Minimizer_GenerateTruthTable root := by
      intro hin
      rcases hmem.mpr hin with ⟨t, ht, -⟩
      cases ht
    have hre : AST_Evaluate root m.val = false := by
      cases he : AST_Evaluate root m.val
      · rfl
      · exact absurd ((tt_mem root m.val).mpr ⟨m.isLt, he⟩) hnot
    rw [hre, show Minimizer_PrintSOP [] = "0 (False)" from rfl,
      parse_false_string m]
  | cons t1 rest =>
    have hL : ∀ t ∈ t1 :: rest, ∃ b, b < 6 ∧ t.mask.testBit b = false := by
      intro t ht
      apply no_full_mask root hnc
      rw [hP]
      exact ht
    have hm63 : t1.mask ≠ 63 := by
      obtain ⟨b, hb, hub⟩ := hL t1 (List.mem_cons_self t1 rest)
      intro h63
      rw [h63] at hub
      have h63b : ∀ b' : Fin 6, (63 : Nat).testBit b'.val = true := by decide
      rw [h63b ⟨b, hb⟩] at hub
      cases hub
    rw [sop_parse_eval t1 rest hm63 hL m.val]
    have hcov := findPrime_coverage (tt_bound root) m.isLt
    rw [hP] at hcov
    cases he : AST_Evaluate root m.val
    · cases hc : coverOf (t1 :: rest) m.val
      · rfl
      · exfalso
        have hin := hcov.mp (coverOf_iff.mp hc)
        have htr := ((tt_mem root m.val).mp hin).2
        rw [he] at htr
        cases htr
    · have hin := (tt_mem root m.val).mpr ⟨m.isLt, he⟩
      rw [coverOf_iff.mpr (hcov.mpr hin)]

theorem claim_C1_witness :
    (¬ ∀ m : Fin 64, AST_Evaluate (AST_CreateVar 'A') m.val = true) ∧
    AST_Evaluate (Parser_ParseString (Minimizer_PrintSOP
      (Minimizer_FindPrimeImplicants
        (Minimizer_GenerateTruthTable (AST_CreateVar 'A'))))) (0 : Fin 64).val =
      AST_Evaluate (AST_CreateVar 'A') (0 : Fin 64).val :=
  ⟨by decide, claim_C1_roundtrip (AST_CreateVar 'A') (by decide) 0⟩

/-! ## Claim theorems: minimizer claims -/

/-- C8: implicant normalization invariant.  For every truth table whose
minterms lie in [0, 63], every implicant returned by
`Minimizer_FindPrimeImplicants` has all don't-care bits zeroed in its
value (`value &&& mask = 0`) and a value in [0, 63]. -/
theorem claim_C8_normalization (tt : List Nat) (h : ∀ x ∈ tt, x ≤ 63) :
    ∀ t ∈ Minimizer_FindPrimeImplicants tt,
      t.value &&& t.mask = 0 ∧ t.value ≤ 63 := by
  intro t ht
  have hinv := @findPrime_inv tt (fun x hx => by have := h x hx; omega) t ht
  exact ⟨hinv.2.2, by have := hinv.1; omega⟩

/-- C8 witness: the theorem applied to the table [0, 1, 2, 5] and the
prime implicant (0, mask 1) computed from it. -/
theorem claim_C8_witness :
    (⟨0, 1, false, false⟩ : Implicant) ∈ Minimizer_FindPrimeImplicants [0, 1, 2, 5] ∧
    (0 &&& 1 = 0 ∧ 0 ≤ 63) := by
  refine ⟨by decide, ?_⟩
  exact claim_C8_normalization [0, 1, 2, 5] (by decide) ⟨0, 1, false, false⟩ (by decide)

/-- C4: idempotence / primality of the minimizer output.  For every truth
table of minterms in [0, 63], the returned list has no duplicate
`(value, mask)` pair and no two members satisfy the merge condition (in
either order), so one further merge pass performs zero merges and leaves
the list untouched, and re-running the whole merge loop on it returns the
same list. -/
theorem claim_C4_idempotence (tt : List Nat) (h : ∀ x ∈ tt, x ≤ 63) :
    List.Pairwise
      (fun x y => ¬(x.value = y.value ∧ x.mask = y.mask) ∧
        can_combine x y = none ∧ can_combine y x = none)
      (Minimizer_FindPrimeImplicants tt) ∧
    qm_pass (Minimizer_FindPrimeImplicants tt).length
      (clear_used (Minimizer_FindPrimeImplicants tt)) [] false =
      (Minimizer_FindPrimeImplicants tt, [], false) ∧
    qm_loop 65 (Minimizer_FindPrimeImplicants tt) [] =
      Minimizer_FindPrimeImplicants tt := by
  have h64 : ∀ x ∈ tt, x < 64 := fun x hx => by have := h x hx; omega
  have hprime := qm_loop_prime 65 0 (tt.map (fun m => ⟨m, 0, false, false⟩)) []
    (init_inv h64)
    (by
      intro t ht
      rcases List.mem_map.mp ht with ⟨v, hv, rfl⟩
      show popcount6 0 = 0
      decide)
    (by omega)
    List.Pairwise.nil List.Pairwise.nil
    (by intro p hp; cases hp) (by intro p hp; cases hp)
  rcases hprime with ⟨hk, hn, hu⟩
  have hclear : clear_used (Minimizer_FindPrimeImplicants tt) =
      Minimizer_FindPrimeImplicants tt := by
    rw [clear_used]
    have : ∀ p ∈ Minimizer_FindPrimeImplicants tt, unmark p = p := fun p hp =>
      unmark_of_used_false (hu p hp)
    calc (Minimizer_FindPrimeImplicants tt).map unmark
        = (Minimizer_FindPrimeImplicants tt).map id := List.map_congr_left this
      _ = Minimizer_FindPrimeImplicants tt := List.map_id _
  have hpass : qm_pass (Minimizer_FindPrimeImplicants tt).length
      (clear_used (Minimizer_FindPrimeImplicants tt)) [] false =
      (Minimizer_FindPrimeImplicants tt, [], false) := by
    rw [hclear]
    exact qm_pass_identity _ [] false hn
  refine ⟨(hk.and hn).imp ?_, hpass, ?_⟩
  · intro x y hxy
    exact ⟨hxy.1, hxy.2, can_combine_none_symm hxy.2⟩
  · rw [qm_loop_succ]
    have hlen : (clear_used (Minimizer_FindPrimeImplicants tt)).length =
        (Minimizer_FindPrimeImplicants tt).length := by rw [hclear]
    rw [hlen, hpass]
    simp only [Bool.false_eq_true, if_false]
    calc collect_primes (Minimizer_FindPrimeImplicants tt) []
        = [] ++ Minimizer_FindPrimeImplicants tt :=
          collect_primes_identity (Minimizer_FindPrimeImplicants tt) [] hu hk
            (by intro t ht x hx; cases hx)
      _ = Minimizer_FindPrimeImplicants tt := List.nil_append _

/-- C4 witness: the theorem applied to the concrete truth table
[0, 1, 2, 5]. -/
theorem claim_C4_witness :
    (∀ x ∈ [0, 1, 2, 5], x ≤ 63) ∧
    qm_loop 65 (Minimizer_FindPrimeImplicants [0, 1, 2, 5]) [] =
      Minimizer_FindPrimeImplicants [0, 1, 2, 5] :=
  ⟨by decide, (claim_C4_idempotence [0, 1, 2, 5] (by decide)).2.2⟩

end LogicSim
